import Mathlib

/-!
# jsonserver: the route-tree registrar of `main.go`

A shallow embedding of `registerRoutes` (src/main.go, lines 57-116) and of the
handlers it installs.

Modelling conventions.

* A Go `string` is a Lean `String`; `len` is the length in bytes
  (`String.utf8ByteSize`).  The byte test `path[len(path)-1] == '/'` is the test
  that the last character is `'/'`: in UTF-8 the byte `0x2F` occurs only as the
  encoding of `'/'`.
* A Go `map` is the list of its entries in the order in which `range` visits
  them.  Go leaves that order unspecified, so every theorem below is stated for
  an arbitrary list, that is, for every visiting order.  Keys of a real map are
  distinct.
* `*http.ServeMux` is the sequence of `HandleFunc(pattern, handler)` calls it
  has accepted, oldest first.  `registerRoutes` describes the registration on a
  transport that accepts every pattern; `registerRoutesOn` describes it on a
  transport that refuses some patterns, where `HandleFunc` panics (net/http
  refuses the empty pattern, a pattern it already holds and, since Go 1.22, a
  pattern it cannot parse or that conflicts with one it holds).  Whenever
  `registerRoutesOn` returns, it returns what `registerRoutes` gives
  (`registerRoutesOn_returned`).
* `http.ResponseWriter` is an interface; a handler is described by the sequence
  of calls it makes on it (`Effect`).  `routeClosure` and `Handler.ServeHTTP`
  describe one request, the headers being set in the order of the list
  `Route.Headers`; Go chooses the order of a `range` over a map anew each
  time, and `Handler.mayReply` describes every reply a handler may give.
* A closure is the record of the variables it captures.  Loop variables are per
  iteration (Go 1.22 and later): the closure built in one iteration keeps the
  `route` and `path` of that iteration.
* Logging (`logger.Debug/Warn/Info`) has no effect on registration or on
  responses and is left out.
-/

namespace JsonServer

/-! ## Data model (`main.go`, lines 16-26) -/

/-- The Go type `Route` (`type Route struct`): one method's canned response.  `Response` is the
`json.RawMessage`, absent meaning no bytes. -/
structure Route where
  Headers : List (String × String)
  Method : String
  Status : Int
  Response : String
deriving DecidableEq, Repr

/-- The Go type `PathGroup` (`type PathGroup struct`): `Children` is the pointer `*jsonServer`, `none`
being `nil`; the pointee is the map `jsonServer`, a list of
`(segment, PathGroup)` entries. -/
inductive PathGroup where
  | mk (Handlers : List Route) (Children : Option (List (String × PathGroup)))

/-- The Go type `jsonServer` (`type jsonServer map[string]PathGroup`). -/
abbrev jsonServer := List (String × PathGroup)

/-- Field `Handlers` of a `PathGroup`. -/
def PathGroup.Handlers : PathGroup → List Route
  | .mk hs _ => hs

/-- Field `Children` of a `PathGroup`. -/
def PathGroup.Children : PathGroup → Option jsonServer
  | .mk _ ch => ch

/-! ## Strings -/

/-- Go's `len(s)` for a string: its number of bytes. -/
def len (s : String) : Nat := s.utf8ByteSize

/-- The test `s[len(s)-1] == '/'`, meaningful when `len(s) > 0`. -/
def lastIsSlash (s : String) : Bool := s.data.getLast? == some '/'

/-- The call `strings.TrimPrefix(s, "/")`: `s` without the leading `"/"` when it has
one, `s` itself otherwise. -/
def TrimPrefixSlash (s : String) : String :=
  match s.data with
  | '/' :: rest => String.mk rest
  | _ => s

/-! ## Requests, responses, handlers -/

/-- The part of `*http.Request` a handler can read. -/
structure Request where
  Method : String
  Path : String
  Header : List (String × String)
  Body : String
deriving DecidableEq, Repr

/-- One call made by a handler on its `http.ResponseWriter`:
`w.Header().Set(k, v)`, `w.WriteHeader(code)`, `w.Write(b)`, and the library
reply `http.NotFound(w, r)`. -/
inductive Effect where
  | HeaderSet (k v : String)
  | WriteHeader (code : Int)
  | Write (b : String)
  | NotFound
deriving DecidableEq, Repr

/-- The constant `http.StatusMethodNotAllowed`. -/
def StatusMethodNotAllowed : Int := 405

/-- The constant `http.StatusNotFound`, the status of the reply of `http.NotFound`. -/
def StatusNotFound : Int := 404

/-- The `methods` map of one group: method string to the route captured by the
closure stored under it. -/
abbrev Methods := List (String × Route)

/-- Map assignment `methods[k] = v`: the entry of `k` is replaced. -/
def Methods.set (m : Methods) (k : String) (v : Route) : Methods :=
  m.filter (fun e => e.1 != k) ++ [(k, v)]

/-- Map lookup `methods[k]` with its `ok` flag. -/
def Methods.get (m : Methods) (k : String) : Option Route :=
  (m.find? (fun e => e.1 == k)).map Prod.snd

/-- The body of the closure stored in `methods` (lines 85-95), for the route it
captures: set the headers, write the status, write the response.  The headers
are visited in the order of the list; `routeClosureIn` takes the order as an
argument. -/
def routeClosure (route : Route) : List Effect :=
  route.Headers.map (fun kv => Effect.HeaderSet kv.1 kv.2)
    ++ [Effect.WriteHeader route.Status, Effect.Write route.Response]

/-- The loop `for _, route := range pathGroup.Handlers` (lines 81-97), started
with the map `methods`. -/
def buildMethods (methods : Methods) : List Route → Methods
  | [] => methods
  | route :: rest => buildMethods (methods.set route.Method route) rest

/-- The closure passed to `mux.HandleFunc` (lines 99-113): it captures `path`
and `methods`. -/
structure Handler where
  path : String
  methods : Methods
deriving DecidableEq, Repr

/-- The body of the closure passed to `mux.HandleFunc` (lines 99-113). -/
def Handler.ServeHTTP (h : Handler) (r : Request) : List Effect :=
  if r.Path != h.path then
    [Effect.NotFound]
  else
    match h.methods.get r.Method with
    | some route => routeClosure route
    | none => [Effect.WriteHeader StatusMethodNotAllowed]

/-- The status code of a reply: the first `WriteHeader`, `200` when a `Write`
comes first, `404` for `http.NotFound`. -/
def statusOf : List Effect → Option Int
  | [] => none
  | Effect.HeaderSet _ _ :: rest => statusOf rest
  | Effect.WriteHeader code :: _ => some code
  | Effect.Write _ :: _ => some 200
  | Effect.NotFound :: _ => some StatusNotFound

/-- The headers a handler sets itself, in order. -/
def headersOf : List Effect → List (String × String)
  | [] => []
  | Effect.HeaderSet k v :: rest => (k, v) :: headersOf rest
  | _ :: rest => headersOf rest

/-- The bytes a handler writes itself, in order. -/
def bodyOf : List Effect → String
  | [] => ""
  | Effect.Write b :: rest => b ++ bodyOf rest
  | _ :: rest => bodyOf rest

/-! ## Registration (`main.go`, lines 57-116) -/

/-- The state of a `*http.ServeMux`: the `HandleFunc` calls received. -/
abbrev ServeMux := List (String × Handler)

/-- The handler the loop body builds for a group once `path` holds the
absolute path (lines 65, 81-113). -/
def handlerOf (path : String) (pathGroup : PathGroup) : Handler :=
  { path := path, methods := buildMethods [] pathGroup.Handlers }

/-- The check of line 67. -/
def endsWithSlash (path : String) : Bool :=
  decide (len path > 1) && lastIsSlash path

/-- Lines 71-74: the value of `base` after the `if len(base) < 2` block. -/
def normBase (base : String) : String :=
  if len base < 2 then TrimPrefixSlash base else base

mutual
/-- The function `registerRoutes(base, mux, server)` (lines 57-116): `server`
is a pointer, `none` being `nil`.  The result is the mux after the call and the
returned error, `none` being `nil`. -/
def registerRoutes (base : String) (mux : ServeMux) :
    Option (List (String × PathGroup)) → ServeMux × Option String
  | none => (mux, none)
  | some server => rangeServer base mux server
/-- The loop `for path, pathGroup := range *server` (lines 64-114), on the
entries still to visit.  `base` is reassigned inside the body, so it is carried
from one iteration to the next. -/
def rangeServer (base : String) (mux : ServeMux) :
    List (String × PathGroup) → ServeMux × Option String
  | [] => (mux, none)
  | (path, pathGroup) :: rest =>
    if endsWithSlash path then
      (mux, some ("path " ++ path ++ " ends with a /"))
    else
      let base := normBase base
      let path := base ++ path
      match registerChildren (base ++ path) mux pathGroup with
      | (mux, some err) => (mux, some err)
      | (mux, none) =>
        rangeServer base (mux ++ [(path, handlerOf path pathGroup)]) rest
/-- Lines 76-80: when `pathGroup.Children != nil`, the recursive call of
`registerRoutes` on `pathGroup.Children`, with the base it is given. -/
def registerChildren (base : String) (mux : ServeMux) :
    PathGroup → ServeMux × Option String
  | .mk _ Children =>
    if Children.isSome then registerRoutes base mux Children else (mux, none)
end

/-! ## Registration on a transport that refuses some patterns -/

/-- How a call of `registerRoutes` ends: it returns (the mux after the call and
the error, `none` being `nil`), or a call of `mux.HandleFunc` panics (the mux
as it is then). -/
inductive Outcome where
  | returned (mux : ServeMux) (err : Option String)
  | panicked (mux : ServeMux)
deriving DecidableEq, Repr

/-- The mux at the end of a call, returned or panicked. -/
def Outcome.mux : Outcome → ServeMux
  | .returned mux _ => mux
  | .panicked mux => mux

mutual
/-- The function `registerRoutes(base, mux, server)` (lines 57-116) on a
transport given by `refuses`: `refuses mux pattern` says that
`mux.HandleFunc(pattern, handler)` panics in the state `mux`. -/
def registerRoutesOn (refuses : ServeMux → String → Bool) (base : String) (mux : ServeMux) :
    Option (List (String × PathGroup)) → Outcome
  | none => .returned mux none
  | some server => rangeServerOn refuses base mux server
/-- The loop `for path, pathGroup := range *server` (lines 64-114) on that
transport. -/
def rangeServerOn (refuses : ServeMux → String → Bool) (base : String) (mux : ServeMux) :
    List (String × PathGroup) → Outcome
  | [] => .returned mux none
  | (path, pathGroup) :: rest =>
    if endsWithSlash path then
      .returned mux (some ("path " ++ path ++ " ends with a /"))
    else
      let base := normBase base
      let path := base ++ path
      match registerChildrenOn refuses (base ++ path) mux pathGroup with
      | .panicked mux => .panicked mux
      | .returned mux (some err) => .returned mux (some err)
      | .returned mux none =>
        if refuses mux path then .panicked mux
        else rangeServerOn refuses base (mux ++ [(path, handlerOf path pathGroup)]) rest
/-- Lines 76-80 on that transport. -/
def registerChildrenOn (refuses : ServeMux → String → Bool) (base : String) (mux : ServeMux) :
    PathGroup → Outcome
  | .mk _ Children =>
    if Children.isSome then registerRoutesOn refuses base mux Children
    else .returned mux none
end

/-- A transport that refuses the empty pattern and every pattern it already
holds, and no other pattern.  `http.ServeMux` refuses these and, since Go
1.22, also patterns it cannot parse or that conflict with one it holds; on
trees none of whose patterns is of that kind it behaves as this one. -/
def refusesEmptyOrHeld (mux : ServeMux) (pattern : String) : Bool :=
  pattern == "" || (mux.map Prod.fst).contains pattern

/-! ## Replies when the order of the headers is left to Go -/

/-- The calls of the closure of a route (lines 85-95) when the loop
`for k, v := range route.Headers` visits the entries in the order `visit`. -/
def routeClosureIn (route : Route) (visit : List (String × String)) : List Effect :=
  visit.map (fun kv => Effect.HeaderSet kv.1 kv.2)
    ++ [Effect.WriteHeader route.Status, Effect.Write route.Response]

/-- The sequence `calls` is a reply the handler may give to the request.  Go
chooses the order of a `range` over a map at every execution, so the closure of
a route may visit the entries of `route.Headers` in any order; the rest of the
handler (lines 99-113) has one way to run. -/
def Handler.mayReply (h : Handler) (r : Request) (calls : List Effect) : Prop :=
  if r.Path != h.path then
    calls = [Effect.NotFound]
  else
    match h.methods.get r.Method with
    | some route =>
      ∃ visit : List (String × String), visit.Perm route.Headers ∧
        calls = routeClosureIn route visit
    | none => calls = [Effect.WriteHeader StatusMethodNotAllowed]

/-- The replies a handler may give to a sequence of requests, one after the
other.  The closures assign to none of the variables they capture (`path`,
`methods`, `route` are only read), so each reply is one the handler may give to
that request alone. -/
def Handler.mayServe (h : Handler) (requests : List Request)
    (replies : List (List Effect)) : Prop :=
  List.Forall₂ h.mayReply requests replies

/-- The value the response carries under the header name `name` after the
calls: `w.Header().Set(k, v)` stores `v` under `canon k`, the canonical form of
`k`, replacing what was stored there. -/
def headerValue (canon : String → String) (calls : List Effect) (name : String) :
    Option String :=
  ((headersOf calls).reverse.find? (fun kv => canon kv.1 == name)).map Prod.snd

/-- A byte allowed in a header name (`validHeaderFieldByte` of net/textproto):
a letter, a digit or one of the token punctuation characters. -/
def validHeaderFieldChar (c : Char) : Bool :=
  c.isAlphanum || "!#$%&*+-.^_|~".data.contains c || c == Char.ofNat 39 || c == Char.ofNat 96

/-- The letters of a canonical header name: upper case at the start and after
`'-'`, lower case elsewhere. -/
def canonicalLetters : Bool → List Char → List Char
  | _, [] => []
  | upper, c :: cs =>
    let c1 := if upper && c.isLower then c.toUpper
              else if !upper && c.isUpper then c.toLower else c
    c1 :: canonicalLetters (c1 == '-') cs

/-- The function `textproto.CanonicalMIMEHeaderKey`, which `Header.Set` applies
to the name: a name made of allowed bytes only is put in canonical form, any
other name is left as it is. -/
def CanonicalMIMEHeaderKey (s : String) : String :=
  if s.data.all validHeaderFieldChar then String.mk (canonicalLetters true s.data) else s

/-! ## The tree of `main_test.go` -/

/-- The headers every route of the test carries. -/
def testHeaders : List (String × String) := [("Content-Type", "application/json")]

/-- The route of `"/newpath2"` in the test. -/
def postRoute : Route :=
  { Headers := testHeaders, Method := "POST", Status := 204, Response := "" }

/-- The group under `"/newpath2"` in the test. -/
def newpath2Group : PathGroup := .mk [postRoute] none

/-- The group under `"/newpath"` in the test. -/
def newpathGroup : PathGroup :=
  .mk [{ Headers := testHeaders, Method := "GET", Status := 200, Response := "" }]
    (some [("/newpath2", newpath2Group)])

/-- The group under `"/"` in the test. -/
def rootGroup : PathGroup :=
  .mk [{ Headers := testHeaders, Method := "GET", Status := 200,
         Response := "\x7b\n\t\t\t\t\t\"message\": \"Hello, world!\"\n\t\t\t\t\x7d" }]
    (some [("/newpath", newpathGroup)])

/-- The decoded input of `TestServer` (main_test.go, lines 10-46). -/
def testServer : jsonServer := [("/", rootGroup)]

/-- The request of the test: `http.Post(".../newpath/newpath2", "text/plain", nil)`. -/
def testRequest : Request :=
  { Method := "POST", Path := "/newpath/newpath2",
    Header := [("Content-Type", "text/plain")], Body := "" }

/-! ## Further concrete trees -/

/-- A route answering `GET` with `200` and no headers or body. -/
def getRoute : Route := { Headers := [], Method := "GET", Status := 200, Response := "" }

/-- The tree `"/a"` over `"/b"` over `"/c"`. -/
def chainABC : jsonServer :=
  [("/a", .mk [getRoute] (some
    [("/b", .mk [getRoute] (some
      [("/c", .mk [getRoute] none)]))]))]

/-- Two siblings, `"/a"` visited first, then the invalid `"/b/"`. -/
def validThenInvalid : jsonServer :=
  [("/a", .mk [getRoute] none), ("/b/", .mk [getRoute] none)]

/-- The same map, the invalid `"/b/"` visited first. -/
def invalidThenValid : jsonServer :=
  [("/b/", .mk [getRoute] none), ("/a", .mk [getRoute] none)]

/-- The root segment `"/"` nested under the root segment `"/"`. -/
def rootUnderRoot : jsonServer :=
  [("/", .mk [getRoute] (some [("/", .mk [getRoute] none)]))]

/-- The first of two routes with the method `GET`. -/
def firstGet : Route :=
  { Headers := [("X-Which", "first")], Method := "GET", Status := 200, Response := "first" }

/-- The second of two routes with the method `GET`. -/
def secondGet : Route :=
  { Headers := [("X-Which", "second")], Method := "GET", Status := 201, Response := "second" }

/-- A group whose handlers name the method `GET` twice. -/
def duplicateGroup : PathGroup := .mk [firstGet, postRoute, secondGet] none

/-- A tree with the group `duplicateGroup` under `"/dup"`. -/
def duplicateGet : jsonServer := [("/dup", duplicateGroup)]

/-- Two siblings, `"/a"` (with a child `"/c"`) visited before `"/b"`. -/
def siblingsAB : jsonServer :=
  [("/a", .mk [getRoute] (some [("/c", .mk [getRoute] none)])), ("/b", .mk [postRoute] none)]

/-- The same map, `"/b"` visited before `"/a"`. -/
def siblingsBA : jsonServer :=
  [("/b", .mk [postRoute] none), ("/a", .mk [getRoute] (some [("/c", .mk [getRoute] none)]))]

/-- The root segment `"/"` nested under the segment `"/a"`. -/
def slashUnderA : jsonServer :=
  [("/a", .mk [getRoute] (some [("/", .mk [getRoute] none)]))]

/-- A group without handlers, carrying only a child. -/
def carrierGroup : PathGroup := .mk [] (some [("/v1", .mk [getRoute] none)])

/-- A tree with the group `carrierGroup` under `"/api"`. -/
def carrierOnly : jsonServer := [("/api", carrierGroup)]

/-- A tree whose only key is the empty segment. -/
def emptyKey : jsonServer := [("", .mk [getRoute] none)]

/-- The empty segment visited first, then the invalid `"/b/"`. -/
def emptyThenInvalid : jsonServer :=
  [("", .mk [getRoute] none), ("/b/", .mk [getRoute] none)]

/-- A route whose header names `x-a` and `X-A` have the same canonical form. -/
def collidingRoute : Route :=
  { Headers := [("x-a", "1"), ("X-A", "2")], Method := "GET", Status := 200, Response := "" }

/-- A group with the route `collidingRoute`. -/
def collidingGroup : PathGroup := .mk [collidingRoute] none

/-- A tree with the group `collidingGroup` under `"/h"`. -/
def collidingHeaders : jsonServer := [("/h", collidingGroup)]

/-- A `GET` request to `"/h"`. -/
def getH : Request := { Method := "GET", Path := "/h", Header := [], Body := "" }

/-! ## Vocabulary of the properties -/

/-- A segment that is not exactly `"/"` and ends in `'/'`. -/
def invalidSegment (segment : String) : Bool :=
  decide (segment ≠ "/") && lastIsSlash segment

mutual
/-- All the keys of a tree, at every depth, in the order of a visit. -/
def segmentsOf : List (String × PathGroup) → List String
  | [] => []
  | (segment, group) :: rest => segment :: (segmentsBelow group ++ segmentsOf rest)
/-- All the keys strictly below a group. -/
def segmentsBelow : PathGroup → List String
  | .mk _ none => []
  | .mk _ (some children) => segmentsOf children
end

/-- Some key of the tree, at any depth, is an invalid segment. -/
def containsInvalid (server : List (String × PathGroup)) : Bool :=
  (segmentsOf server).any invalidSegment

mutual
/-- All the groups of a tree, at every depth. -/
def groupsOf : List (String × PathGroup) → List PathGroup
  | [] => []
  | (_, group) :: rest => (group :: groupsBelow group) ++ groupsOf rest
/-- All the groups strictly below a group. -/
def groupsBelow : PathGroup → List PathGroup
  | .mk _ none => []
  | .mk _ (some children) => groupsOf children
end

/-- The entries of the children of a group, none when the pointer is nil. -/
def PathGroup.entries (g : PathGroup) : List (String × PathGroup) :=
  g.Children.getD []

/-- The call is `w.Header().Set`. -/
def Effect.isHeaderSet : Effect → Bool
  | .HeaderSet _ _ => true
  | _ => false

/-- The call is `w.WriteHeader`. -/
def Effect.isWriteHeader : Effect → Bool
  | .WriteHeader _ => true
  | _ => false

/-- The call is `w.Write`. -/
def Effect.isWrite : Effect → Bool
  | .Write _ => true
  | _ => false

mutual
/-- The groups of a tree in the order descendants first, then the group, then
the siblings visited after it. -/
def postOrder : List (String × PathGroup) → List PathGroup
  | [] => []
  | (_, group) :: rest => postOrderBelow group ++ group :: postOrder rest
/-- The groups strictly below a group, in the same order. -/
def postOrderBelow : PathGroup → List PathGroup
  | .mk _ none => []
  | .mk _ (some children) => postOrder children
end

/-- Two trees that differ only in the order in which the entries of their
maps, at any depth, are visited. -/
inductive SameUpToOrder : List (String × PathGroup) → List (String × PathGroup) → Prop where
  | nil : SameUpToOrder [] []
  | leaf (segment : String) (g : PathGroup) {l1 l2 : List (String × PathGroup)} :
      SameUpToOrder l1 l2 → SameUpToOrder ((segment, g) :: l1) ((segment, g) :: l2)
  | node (segment : String) (hs : List Route) {c1 c2 l1 l2 : List (String × PathGroup)} :
      SameUpToOrder c1 c2 → SameUpToOrder l1 l2 →
      SameUpToOrder ((segment, .mk hs (some c1)) :: l1) ((segment, .mk hs (some c2)) :: l2)
  | swap (e1 e2 : String × PathGroup) (l : List (String × PathGroup)) :
      SameUpToOrder (e1 :: e2 :: l) (e2 :: e1 :: l)
  | trans {l1 l2 l3 : List (String × PathGroup)} :
      SameUpToOrder l1 l2 → SameUpToOrder l2 l3 → SameUpToOrder l1 l3

/-! ## Basic facts -/

theorem rangeServer_nil (base : String) (mux : ServeMux) :
    rangeServer base mux [] = (mux, none) := by
  simp [rangeServer]

theorem rangeServer_cons (base : String) (mux : ServeMux) (path : String)
    (g : PathGroup) (rest : List (String × PathGroup)) :
    rangeServer base mux ((path, g) :: rest) =
      if endsWithSlash path then (mux, some ("path " ++ path ++ " ends with a /"))
      else
        match registerRoutes (normBase base ++ (normBase base ++ path)) mux g.Children with
        | (mux1, some err) => (mux1, some err)
        | (mux1, none) =>
          rangeServer (normBase base)
            (mux1 ++ [(normBase base ++ path, handlerOf (normBase base ++ path) g)]) rest := by
  cases g with
  | mk hs ch =>
    cases ch <;> simp [rangeServer, registerChildren, registerRoutes, PathGroup.Children]

theorem len_mk_cons_cons (c d : Char) (cs : List Char) :
    2 ≤ len (String.mk (c :: d :: cs)) := by
  have h1 := Char.utf8Size_pos c
  have h2 := Char.utf8Size_pos d
  simp [len, String.utf8ByteSize, String.utf8ByteSize.go]; omega

/-- The check of line 67 says: not exactly `"/"`, and ending in `'/'`. -/
theorem endsWithSlash_eq_invalidSegment (s : String) :
    endsWithSlash s = invalidSegment s := by
  rcases s with ⟨cs⟩
  match cs with
  | [] => simp [endsWithSlash, invalidSegment, lastIsSlash]
  | [c] =>
    by_cases hc : c = '/'
    · subst hc
      decide
    · have hb : (c == '/') = false := beq_false_of_ne hc
      simp [endsWithSlash, invalidSegment, lastIsSlash, hb]
  | c :: d :: cs =>
    have h := len_mk_cons_cons c d cs
    have hne : String.mk (c :: d :: cs) ≠ "/" := by
      intro he
      have := congrArg String.data he
      simp at this
    have hlt : len (String.mk (c :: d :: cs)) > 1 := by omega
    simp [endsWithSlash, invalidSegment, hne, hlt]

/-! ## Registration only appends to the mux -/

mutual
theorem rangeServer_frame : ∀ (server : List (String × PathGroup)) (base : String)
    (mux : ServeMux),
    rangeServer base mux server
      = (mux ++ (rangeServer base [] server).1, (rangeServer base [] server).2)
  | [], base, mux => by simp [rangeServer]
  | (path, .mk hs ch) :: rest, base, mux => by
    rw [rangeServer_cons base mux, rangeServer_cons base []]
    simp only [PathGroup.Children]
    by_cases hp : endsWithSlash path = true
    · simp [hp]
    · simp only [hp, Bool.false_eq_true, if_false]
      have hg := registerRoutes_frame ch (normBase base ++ (normBase base ++ path)) mux
      rcases h0 : registerRoutes (normBase base ++ (normBase base ++ path)) [] ch
        with ⟨m0, _ | e0⟩
      · rw [h0] at hg
        rw [hg]
        simp only [List.nil_append]
        rw [rangeServer_frame rest (normBase base)
          (mux ++ m0 ++ [(normBase base ++ path,
            handlerOf (normBase base ++ path) (.mk hs ch))])]
        rw [rangeServer_frame rest (normBase base)
          (m0 ++ [(normBase base ++ path, handlerOf (normBase base ++ path) (.mk hs ch))])]
        simp [List.append_assoc]
      · rw [h0] at hg
        rw [hg]
theorem registerRoutes_frame : ∀ (server : Option (List (String × PathGroup)))
    (base : String) (mux : ServeMux),
    registerRoutes base mux server
      = (mux ++ (registerRoutes base [] server).1, (registerRoutes base [] server).2)
  | none, base, mux => by simp [registerRoutes]
  | some server, base, mux => by
    simp only [registerRoutes]
    exact rangeServer_frame server base mux
end

/-- One iteration of the loop, from the empty mux, when the segment passes the
check of line 67. -/
theorem rangeServer_step (base path : String) (g : PathGroup)
    (rest : List (String × PathGroup)) (hp : endsWithSlash path = false) :
    rangeServer base [] ((path, g) :: rest) =
      match registerRoutes (normBase base ++ (normBase base ++ path)) [] g.Children with
      | (mux1, some err) => (mux1, some err)
      | (mux1, none) =>
        (mux1 ++ (normBase base ++ path, handlerOf (normBase base ++ path) g)
            :: (rangeServer (normBase base) [] rest).1,
          (rangeServer (normBase base) [] rest).2) := by
  rw [rangeServer_cons]
  simp only [hp, Bool.false_eq_true, if_false]
  rcases registerRoutes (normBase base ++ (normBase base ++ path)) [] g.Children
    with ⟨m1, _ | e1⟩
  · simp only
    rw [rangeServer_frame]
    simp
  · rfl

theorem TrimPrefixSlash_of_not_slash (s : String)
    (h : ∀ rest, s.data ≠ '/' :: rest) : TrimPrefixSlash s = s := by
  rcases s with ⟨cs⟩
  match cs with
  | [] => simp [TrimPrefixSlash]
  | c :: cs =>
    have hc : c ≠ '/' := by
      intro he
      exact h cs (by simp [he])
    unfold TrimPrefixSlash
    split
    · next rest heq =>
      simp at heq
      exact absurd heq.1 hc
    · rfl

theorem normBase_empty : normBase "" = "" := by decide

theorem normBase_slash : normBase "/" = "" := by decide

theorem normBase_of_two_le (base : String) (h : 2 ≤ len base) : normBase base = base := by
  have : ¬ len base < 2 := by omega
  simp [normBase, this]

/-- The block of lines 71-74 changes nothing when run a second time. -/
theorem normBase_idem (base : String) : normBase (normBase base) = normBase base := by
  by_cases hl : len base < 2
  · rcases base with ⟨cs⟩
    match cs with
    | [] => decide
    | c :: cs =>
      by_cases hc : c = '/'
      · subst hc
        match cs with
        | [] => decide
        | d :: ds =>
          have := len_mk_cons_cons '/' d ds
          omega
      · have ht : TrimPrefixSlash (String.mk (c :: cs)) = String.mk (c :: cs) := by
          apply TrimPrefixSlash_of_not_slash
          intro rest he
          simp at he
          exact hc he.1
        simp [normBase, hl, ht]
  · simp [normBase, hl]

/-- Every iteration of the loop sees the same normalized base: starting the
loop from `normBase base` or from `base` is the same. -/
theorem rangeServer_normBase (base : String) (mux : ServeMux)
    (server : List (String × PathGroup)) :
    rangeServer (normBase base) mux server = rangeServer base mux server := by
  cases server with
  | nil => simp [rangeServer]
  | cons e rest =>
    rcases e with ⟨path, g⟩
    rw [rangeServer_cons, rangeServer_cons, normBase_idem]

/-! ## When registration fails -/

mutual
theorem rangeServer_err_iff : ∀ (server : List (String × PathGroup)) (base : String)
    (mux : ServeMux),
    (rangeServer base mux server).2.isSome = containsInvalid server
  | [], base, mux => by simp [rangeServer, containsInvalid, segmentsOf]
  | (path, .mk hs ch) :: rest, base, mux => by
    have hrest : ∀ b m, (rangeServer b m rest).2.isSome = (segmentsOf rest).any invalidSegment :=
      fun b m => rangeServer_err_iff rest b m
    rw [rangeServer_cons, containsInvalid, segmentsOf, List.any_cons, List.any_append,
      ← endsWithSlash_eq_invalidSegment]
    simp only [PathGroup.Children]
    by_cases hp : endsWithSlash path = true
    · simp [hp]
    · simp only [hp, Bool.false_eq_true, if_false, Bool.false_or]
      have hg := registerRoutes_err_iff ch hs (normBase base ++ (normBase base ++ path)) mux
      rcases h0 : registerRoutes (normBase base ++ (normBase base ++ path)) mux ch
        with ⟨m0, _ | e0⟩
      · rw [h0] at hg
        simp only [Option.isSome_none] at hg
        simp only [← hg, Bool.false_or]
        exact hrest _ _
      · rw [h0] at hg
        simp only [Option.isSome_some] at hg
        simp [← hg]
theorem registerRoutes_err_iff : ∀ (server : Option (List (String × PathGroup)))
    (hs : List Route) (base : String) (mux : ServeMux),
    (registerRoutes base mux server).2.isSome
      = (segmentsBelow (.mk hs server)).any invalidSegment
  | none, hs, base, mux => by simp [registerRoutes, segmentsBelow]
  | some server, hs, base, mux => by
    simp only [registerRoutes, segmentsBelow]
    exact rangeServer_err_iff server base mux
end

/-! ## Installed handlers and the groups of the tree -/

theorem rangeServer_bad (base path : String) (g : PathGroup)
    (rest : List (String × PathGroup)) (mux : ServeMux) (hp : endsWithSlash path = true) :
    rangeServer base mux ((path, g) :: rest)
      = (mux, some ("path " ++ path ++ " ends with a /")) := by
  rw [rangeServer_cons]
  simp [hp]

mutual
/-- Every installed handler is the handler of a group of the tree, built with
the pattern it is installed at; this holds also when registration fails. -/
theorem rangeServer_installed_from : ∀ (server : List (String × PathGroup)) (base : String)
    (e : String × Handler), e ∈ (rangeServer base [] server).1 →
      ∃ g ∈ groupsOf server, e.2 = handlerOf e.1 g
  | [], base, e, he => by simp [rangeServer] at he
  | (path, .mk hs ch) :: rest, base, e, he => by
    by_cases hp : endsWithSlash path = true
    · rw [rangeServer_bad base path (.mk hs ch) rest [] hp] at he
      simp at he
    · have hp2 : endsWithSlash path = false := by simpa using hp
      rw [rangeServer_step base path (.mk hs ch) rest hp2] at he
      simp only [PathGroup.Children] at he
      have hB := registerRoutes_installed_from ch hs
        (normBase base ++ (normBase base ++ path)) e
      rcases h0 : registerRoutes (normBase base ++ (normBase base ++ path)) [] ch
        with ⟨m0, _ | e0⟩
      · rw [h0] at he hB
        simp only [List.mem_append, List.mem_cons] at he
        rcases he with h1 | h1 | h1
        · obtain ⟨g1, hg1, heq⟩ := hB h1
          exact ⟨g1, by simp [groupsOf, hg1], heq⟩
        · subst h1
          exact ⟨.mk hs ch, by simp [groupsOf], rfl⟩
        · obtain ⟨g1, hg1, heq⟩ := rangeServer_installed_from rest (normBase base) e h1
          exact ⟨g1, by simp [groupsOf, hg1], heq⟩
      · rw [h0] at he hB
        obtain ⟨g1, hg1, heq⟩ := hB he
        exact ⟨g1, by simp [groupsOf, hg1], heq⟩
theorem registerRoutes_installed_from : ∀ (server : Option (List (String × PathGroup)))
    (hs : List Route) (base : String)
    (e : String × Handler), e ∈ (registerRoutes base [] server).1 →
      ∃ g1 ∈ groupsBelow (.mk hs server), e.2 = handlerOf e.1 g1
  | none, hs, base, e, he => by simp [registerRoutes] at he
  | some server, hs, base, e, he => by
    simp only [registerRoutes] at he
    simp only [groupsBelow]
    exact rangeServer_installed_from server base e he
end

mutual
/-- When registration succeeds every group of the tree has its handler
installed, at the pattern the handler compares against. -/
theorem rangeServer_installs_all : ∀ (server : List (String × PathGroup)) (base : String),
    (rangeServer base [] server).2 = none → ∀ g ∈ groupsOf server,
      ∃ P, (P, handlerOf P g) ∈ (rangeServer base [] server).1
  | [], base, _, g, hg => by simp [groupsOf] at hg
  | (path, .mk hs ch) :: rest, base, hok, g, hg => by
    by_cases hp : endsWithSlash path = true
    · rw [rangeServer_bad base path (.mk hs ch) rest [] hp] at hok
      simp at hok
    · have hp2 : endsWithSlash path = false := by simpa using hp
      rw [rangeServer_step base path (.mk hs ch) rest hp2] at hok ⊢
      simp only [PathGroup.Children] at hok ⊢
      have hB := registerRoutes_installs_all ch hs
        (normBase base ++ (normBase base ++ path))
      rcases h0 : registerRoutes (normBase base ++ (normBase base ++ path)) [] ch
        with ⟨m0, _ | e0⟩
      · rw [h0] at hok hB
        simp only at hok
        simp only [groupsOf, List.cons_append, List.mem_cons, List.mem_append] at hg
        rcases hg with h1 | h1 | h1
        · subst h1
          exact ⟨normBase base ++ path, by simp⟩
        · obtain ⟨P, hP⟩ := hB rfl g h1
          exact ⟨P, by simp [hP]⟩
        · obtain ⟨P, hP⟩ := rangeServer_installs_all rest (normBase base) hok g h1
          exact ⟨P, by simp [hP]⟩
      · rw [h0] at hok
        simp at hok
theorem registerRoutes_installs_all : ∀ (server : Option (List (String × PathGroup)))
    (hs : List Route) (base : String),
    (registerRoutes base [] server).2 = none → ∀ g ∈ groupsBelow (.mk hs server),
      ∃ P, (P, handlerOf P g) ∈ (registerRoutes base [] server).1
  | none, hs, base, _, g, hg => by simp [groupsBelow] at hg
  | some server, hs, base, hok, g, hg => by
    simp only [registerRoutes] at hok ⊢
    simp only [groupsBelow] at hg
    exact rangeServer_installs_all server base hok g hg
end

/-! ## The dispatch table -/

theorem Methods.get_set (m : Methods) (k : String) (v : Route) (k2 : String) :
    (m.set k v).get k2 = if k = k2 then some v else m.get k2 := by
  induction m with
  | nil =>
    by_cases h : k = k2
    · simp [Methods.set, Methods.get, List.find?, h]
    · have hb : (k == k2) = false := beq_false_of_ne h
      simp [Methods.set, Methods.get, List.find?, h, hb]
  | cons e m ih =>
    simp only [Methods.set, Methods.get] at ih ⊢
    by_cases h1 : e.1 = k
    · have hf : (e.1 != k) = false := by simp [h1]
      simp only [List.filter_cons, hf, Bool.false_eq_true, if_false]
      rw [ih]
      by_cases h : k = k2
      · simp [h]
      · have : (e.1 == k2) = false := by
          rw [h1]
          exact beq_false_of_ne h
        simp [h, List.find?, this]
    · have hf : (e.1 != k) = true := by simp [h1]
      simp only [List.filter_cons, hf, if_true]
      by_cases h2 : e.1 = k2
      · have hk : ¬ k = k2 := fun hk => h1 (h2.trans hk.symm)
        simp [List.find?, h2, hk]
      · have : (e.1 == k2) = false := beq_false_of_ne h2
        simp only [List.cons_append, List.find?, this]
        exact ih

theorem buildMethods_append (m : Methods) (xs ys : List Route) :
    buildMethods m (xs ++ ys) = buildMethods (buildMethods m xs) ys := by
  induction xs generalizing m with
  | nil => rfl
  | cons x xs ih => simp [buildMethods, ih]

theorem buildMethods_get_of_not_mem (m : Methods) (hs : List Route) (k : String)
    (h : ∀ R ∈ hs, R.Method ≠ k) : (buildMethods m hs).get k = m.get k := by
  induction hs generalizing m with
  | nil => rfl
  | cons x xs ih =>
    simp only [buildMethods]
    rw [ih _ (fun R hR => h R (List.mem_cons_of_mem _ hR)), Methods.get_set]
    simp [h x (List.mem_cons_self _ _)]

/-- The route found under a method is the last route of the group with that
method. -/
theorem buildMethods_get_last (m : Methods) (pre post : List Route) (R : Route)
    (h : ∀ R2 ∈ post, R2.Method ≠ R.Method) :
    (buildMethods m (pre ++ R :: post)).get R.Method = some R := by
  rw [buildMethods_append]
  simp only [buildMethods]
  rw [buildMethods_get_of_not_mem _ _ _ h, Methods.get_set]
  simp

theorem statusOf_routeClosure (R : Route) : statusOf (routeClosure R) = some R.Status := by
  unfold routeClosure
  induction R.Headers with
  | nil => rfl
  | cons kv rest ih => simpa [statusOf] using ih

theorem headersOf_routeClosure (R : Route) : headersOf (routeClosure R) = R.Headers := by
  unfold routeClosure
  induction R.Headers with
  | nil => rfl
  | cons kv rest ih => simp [headersOf, ih]

theorem bodyOf_routeClosure (R : Route) : bodyOf (routeClosure R) = R.Response := by
  unfold routeClosure
  induction R.Headers with
  | nil => simp [bodyOf]
  | cons kv rest ih => simpa [bodyOf] using ih

theorem ServeHTTP_of_path_ne (h : Handler) (r : Request) (hne : r.Path ≠ h.path) :
    h.ServeHTTP r = [Effect.NotFound] := by
  simp [Handler.ServeHTTP, hne]

theorem ServeHTTP_of_path_eq (h : Handler) (r : Request) (he : r.Path = h.path) :
    h.ServeHTTP r =
      match h.methods.get r.Method with
      | some route => routeClosure route
      | none => [Effect.WriteHeader StatusMethodNotAllowed] := by
  simp [Handler.ServeHTTP, he]

/-! ## Where the groups of one map are installed -/

theorem registerRoutes_children (base : String) (mux : ServeMux) (g : PathGroup) :
    registerRoutes base mux g.Children = rangeServer base mux g.entries := by
  cases g with
  | mk hs ch =>
    cases ch <;> simp [registerRoutes, PathGroup.Children, PathGroup.entries, rangeServer]

/-- When the loop succeeds, each entry `(seg, g)` of the map is installed at
`normBase base ++ seg`, and its children are registered, with success, from the
base `normBase base ++ (normBase base ++ seg)`. -/
theorem rangeServer_entry (server : List (String × PathGroup)) (base : String)
    (hok : (rangeServer base [] server).2 = none) (seg : String) (g : PathGroup)
    (hmem : (seg, g) ∈ server) :
    (normBase base ++ seg, handlerOf (normBase base ++ seg) g) ∈ (rangeServer base [] server).1
    ∧ (rangeServer (normBase base ++ (normBase base ++ seg)) [] g.entries).2 = none
    ∧ ∀ e ∈ (rangeServer (normBase base ++ (normBase base ++ seg)) [] g.entries).1,
        e ∈ (rangeServer base [] server).1 := by
  induction server generalizing base with
  | nil => simp at hmem
  | cons e0 rest ih =>
    rcases e0 with ⟨path, g0⟩
    by_cases hp : endsWithSlash path = true
    · rw [rangeServer_bad base path g0 rest [] hp] at hok
      simp at hok
    · have hp2 : endsWithSlash path = false := by simpa using hp
      rw [rangeServer_step base path g0 rest hp2, registerRoutes_children] at hok ⊢
      rcases h0 : rangeServer (normBase base ++ (normBase base ++ path)) [] g0.entries
        with ⟨m0, _ | e0⟩
      · rw [h0] at hok
        simp only at hok ⊢
        rcases List.mem_cons.1 hmem with h1 | h1
        · have hs : seg = path := congrArg Prod.fst h1
          have hg : g = g0 := congrArg Prod.snd h1
          subst hs
          subst hg
          rw [h0]
          refine ⟨by simp, rfl, ?_⟩
          intro e he
          simp [he]
        · have h := ih (normBase base) hok h1
          rw [normBase_idem] at h
          obtain ⟨ha, hb, hc⟩ := h
          refine ⟨by simp [ha], hb, ?_⟩
          intro e he
          simp [hc e he]
      · rw [h0] at hok
        simp at hok

theorem empty_append (s : String) : "" ++ s = s := by
  apply String.ext
  simp [String.data_append]

/-! ## The claims -/

/-- C1: for every tree whose registration from the empty base succeeds and
every group of it, the handler of that group is installed at some pattern `P`,
and for every route `R` of the group that no later route of the group shares
its method with, a request with path `P` and method `R.Method` makes that
handler run the closure of `R`: it sets exactly the headers of `R`, writes the
status of `R` and writes the response bytes of `R` (none when absent). -/
theorem dispatch_correct (server : jsonServer)
    (hok : (registerRoutes "" [] (some server)).2 = none)
    (g : PathGroup) (hg : g ∈ groupsOf server) :
    ∃ P, (P, handlerOf P g) ∈ (registerRoutes "" [] (some server)).1 ∧
      ∀ (pre post : List Route) (R : Route), g.Handlers = pre ++ R :: post →
        (∀ R2 ∈ post, R2.Method ≠ R.Method) →
        ∀ req : Request, req.Path = P → req.Method = R.Method →
          (handlerOf P g).ServeHTTP req = routeClosure R
          ∧ statusOf ((handlerOf P g).ServeHTTP req) = some R.Status
          ∧ headersOf ((handlerOf P g).ServeHTTP req) = R.Headers
          ∧ bodyOf ((handlerOf P g).ServeHTTP req) = R.Response := by
  obtain ⟨P, hP⟩ := rangeServer_installs_all server "" hok g hg
  refine ⟨P, hP, ?_⟩
  intro pre post R hsplit hlast req hpath hmeth
  have hserve : (handlerOf P g).ServeHTTP req = routeClosure R := by
    rw [ServeHTTP_of_path_eq _ _ (by simpa [handlerOf] using hpath)]
    simp only [handlerOf, hsplit, hmeth]
    rw [buildMethods_get_last [] pre post R hlast]
  rw [hserve]
  exact ⟨rfl, statusOf_routeClosure R, headersOf_routeClosure R, bodyOf_routeClosure R⟩

/-- C1 at the tree of the test: the handler of the group under `"/newpath2"`
is installed, and a `POST` to its pattern is answered with status 204, the
header `Content-Type: application/json` and an empty body; the pattern is
`"/newpath/newpath2"`. -/
theorem dispatch_correct_witness :
    (registerRoutes "" [] (some testServer)).2 = none
    ∧ ("/newpath/newpath2", handlerOf "/newpath/newpath2" newpath2Group)
        ∈ (registerRoutes "" [] (some testServer)).1
    ∧ (handlerOf "/newpath/newpath2" newpath2Group).ServeHTTP testRequest
        = [Effect.HeaderSet "Content-Type" "application/json", Effect.WriteHeader 204,
            Effect.Write ""]
    ∧ ∃ P, (P, handlerOf P newpath2Group) ∈ (registerRoutes "" [] (some testServer)).1 ∧
        ∀ req : Request, req.Path = P → req.Method = "POST" →
          statusOf ((handlerOf P newpath2Group).ServeHTTP req) = some 204
          ∧ headersOf ((handlerOf P newpath2Group).ServeHTTP req)
              = [("Content-Type", "application/json")]
          ∧ bodyOf ((handlerOf P newpath2Group).ServeHTTP req) = "" := by
  refine ⟨by decide, by decide, by decide, ?_⟩
  obtain ⟨P, hP, h⟩ := dispatch_correct testServer (by decide) newpath2Group
    (by simp [testServer, groupsOf, groupsBelow, rootGroup, newpathGroup])
  refine ⟨P, hP, ?_⟩
  intro req hpath hmeth
  exact (h [] [] postRoute rfl (by simp) req hpath hmeth).2

/-- C2 at the chain `"/a"`, `"/b"`, `"/c"` (each segment of length 2, starting
with `'/'`, not ending in `'/'`): registration from the empty base succeeds and
hands the transport the patterns `"/a/a/b/c"`, `"/a/b"`, `"/a"`, in this order;
the group of `"/c"` is installed at `"/a/a/b/c"` and nothing is installed at
`"/a/b/c"`. -/
theorem deep_chain_installed_paths :
    (registerRoutes "" [] (some chainABC)).2 = none
    ∧ (registerRoutes "" [] (some chainABC)).1.map Prod.fst = ["/a/a/b/c", "/a/b", "/a"]
    ∧ ("/a/a/b/c", handlerOf "/a/a/b/c" (.mk [getRoute] none))
        ∈ (registerRoutes "" [] (some chainABC)).1
    ∧ "/a/b/c" ∉ (registerRoutes "" [] (some chainABC)).1.map Prod.fst := by
  decide

/-- C3 fails at the map with the keys `"/a"` and `"/b/"` when `"/a"` is visited
first: the tree contains an invalid segment, registration fails, and at that
moment the handler of `"/a"` has been installed. -/
theorem partial_install_on_failure :
    containsInvalid validThenInvalid = true
    ∧ (registerRoutes "" [] (some validThenInvalid)).2 = some "path /b/ ends with a /"
    ∧ (registerRoutes "" [] (some validThenInvalid)).1
        = [("/a", handlerOf "/a" (.mk [getRoute] none))]
    ∧ (registerRoutes "" [] (some validThenInvalid)).1 ≠ [] := by
  decide

/-- C3 as amended: for every base, every mux and every tree that contains, at
any depth, a segment other than `"/"` that ends in `'/'`, registration fails
whatever the order in which siblings are visited; what the mux held before the
call is kept and only extended (nothing is rolled back); and when the first key
visited at the top level is itself invalid the mux is unchanged. -/
theorem fails_without_rollback (base : String) (mux : ServeMux) (server : jsonServer)
    (hbad : ∃ segment ∈ segmentsOf server, invalidSegment segment = true) :
    (∃ err, (registerRoutes base mux (some server)).2 = some err)
    ∧ (∃ installed, (registerRoutes base mux (some server)).1 = mux ++ installed)
    ∧ ∀ segment g rest, server = (segment, g) :: rest → invalidSegment segment = true →
        (registerRoutes base mux (some server)).1 = mux := by
  have herr := rangeServer_err_iff server base mux
  have hc : containsInvalid server = true := by
    simpa [containsInvalid] using hbad
  rw [hc] at herr
  refine ⟨?_, ?_, ?_⟩
  · simpa [registerRoutes, Option.isSome_iff_exists] using herr
  · exact ⟨(rangeServer base [] server).1, by
      simp only [registerRoutes]
      rw [rangeServer_frame]⟩
  · intro segment g rest hs hinv
    subst hs
    simp only [registerRoutes]
    rw [rangeServer_bad base segment g rest mux
      (by rw [endsWithSlash_eq_invalidSegment]; exact hinv)]

/-- C3 as amended, at the map with the keys `"/b/"` and `"/a"`, `"/b/"` visited
first. -/
theorem fails_without_rollback_witness :
    (∃ segment ∈ segmentsOf invalidThenValid, invalidSegment segment = true)
    ∧ (∃ err, (registerRoutes "" [] (some invalidThenValid)).2 = some err)
    ∧ (∃ installed, (registerRoutes "" [] (some invalidThenValid)).1 = [] ++ installed)
    ∧ ∀ segment g rest, invalidThenValid = (segment, g) :: rest →
        invalidSegment segment = true →
        (registerRoutes "" [] (some invalidThenValid)).1 = [] :=
  ⟨⟨"/b/", by decide, by decide⟩,
    fails_without_rollback "" [] invalidThenValid ⟨"/b/", by decide, by decide⟩⟩

/-- C5: for every handler that `registerRoutes` installs at a pattern `P`
(whatever the base and the tree, `"/"` included) and every request whose path
is a string other than `P`, sub-paths of `P` included, the handler only calls
`http.NotFound`: the reply has status 404 and the handler makes no call that
sets a header, writes a status or writes a body of its group. -/
theorem strict_match (base : String) (server : jsonServer) (P : String) (h : Handler)
    (hin : (P, h) ∈ (registerRoutes base [] (some server)).1)
    (req : Request) (hne : req.Path ≠ P) :
    h.ServeHTTP req = [Effect.NotFound]
    ∧ statusOf (h.ServeHTTP req) = some 404
    ∧ headersOf (h.ServeHTTP req) = []
    ∧ bodyOf (h.ServeHTTP req) = "" := by
  obtain ⟨g, _, hg⟩ := rangeServer_installed_from server base (P, h) hin
  have hpath : h.path = P := by
    simp only at hg
    rw [hg]
    rfl
  have hs : h.ServeHTTP req = [Effect.NotFound] :=
    ServeHTTP_of_path_ne h req (by rw [hpath]; exact hne)
  rw [hs]
  exact ⟨rfl, rfl, rfl, rfl⟩

/-- C5 at the tree of the test: the handler installed at `"/newpath"` answers
not found to the sub-path `"/newpath/newpath2"`. -/
theorem strict_match_witness :
    ("/newpath", handlerOf "/newpath" newpathGroup)
        ∈ (registerRoutes "" [] (some testServer)).1
    ∧ testRequest.Path ≠ "/newpath"
    ∧ (handlerOf "/newpath" newpathGroup).ServeHTTP testRequest = [Effect.NotFound]
    ∧ statusOf ((handlerOf "/newpath" newpathGroup).ServeHTTP testRequest) = some 404
    ∧ headersOf ((handlerOf "/newpath" newpathGroup).ServeHTTP testRequest) = []
    ∧ bodyOf ((handlerOf "/newpath" newpathGroup).ServeHTTP testRequest) = "" :=
  ⟨by decide, by decide,
    strict_match "" testServer "/newpath" (handlerOf "/newpath" newpathGroup) (by decide)
      testRequest (by decide)⟩

/-- C6: every handler that `registerRoutes` installs at a pattern `P` is the
handler of a group of the tree, and for every request with path `P` whose
method is the method of no route of that group (compared as strings) the
handler only calls `WriteHeader(405)`: status 405, no header set, no body. -/
theorem method_isolation (base : String) (server : jsonServer) (P : String) (h : Handler)
    (hin : (P, h) ∈ (registerRoutes base [] (some server)).1) :
    ∃ g ∈ groupsOf server, h = handlerOf P g ∧
      ∀ req : Request, req.Path = P → (∀ R ∈ g.Handlers, R.Method ≠ req.Method) →
        h.ServeHTTP req = [Effect.WriteHeader 405]
        ∧ statusOf (h.ServeHTTP req) = some 405
        ∧ headersOf (h.ServeHTTP req) = []
        ∧ bodyOf (h.ServeHTTP req) = "" := by
  obtain ⟨g, hg, heq⟩ := rangeServer_installed_from server base (P, h) hin
  simp only at heq
  refine ⟨g, hg, heq, ?_⟩
  intro req hpath hmeth
  have hs : h.ServeHTTP req = [Effect.WriteHeader 405] := by
    rw [heq, ServeHTTP_of_path_eq _ _ (by simpa [handlerOf] using hpath)]
    simp only [handlerOf]
    rw [buildMethods_get_of_not_mem [] g.Handlers req.Method hmeth]
    rfl
  rw [hs]
  exact ⟨rfl, rfl, rfl, rfl⟩

/-- C6 at the tree of the test: the handler installed at `"/newpath/newpath2"`
carries only `POST`, and answers a `GET` with status 405, no header and no
body. -/
theorem method_isolation_witness :
    ("/newpath/newpath2", handlerOf "/newpath/newpath2" newpath2Group)
        ∈ (registerRoutes "" [] (some testServer)).1
    ∧ (handlerOf "/newpath/newpath2" newpath2Group).ServeHTTP
        { Method := "GET", Path := "/newpath/newpath2", Header := [], Body := "" }
        = [Effect.WriteHeader 405]
    ∧ ∃ g ∈ groupsOf testServer, handlerOf "/newpath/newpath2" newpath2Group
          = handlerOf "/newpath/newpath2" g ∧
        ∀ req : Request, req.Path = "/newpath/newpath2" →
          (∀ R ∈ g.Handlers, R.Method ≠ req.Method) →
          (handlerOf "/newpath/newpath2" newpath2Group).ServeHTTP req
            = [Effect.WriteHeader 405]
          ∧ statusOf ((handlerOf "/newpath/newpath2" newpath2Group).ServeHTTP req) = some 405
          ∧ headersOf ((handlerOf "/newpath/newpath2" newpath2Group).ServeHTTP req) = []
          ∧ bodyOf ((handlerOf "/newpath/newpath2" newpath2Group).ServeHTTP req) = "" :=
  ⟨by decide, by decide,
    method_isolation "" testServer "/newpath/newpath2"
      (handlerOf "/newpath/newpath2" newpath2Group) (by decide)⟩

/-- C8: for every tree whose registration from the empty base succeeds, every
top-level segment `a` of length at least 2 and every key `b` of the children
of `a`, the group of `a` is installed at exactly `a` and the group of `b` at
exactly `a ++ b`. -/
theorem two_level_composition (server : jsonServer)
    (hok : (registerRoutes "" [] (some server)).2 = none)
    (a : String) (ga : PathGroup) (ha : (a, ga) ∈ server) (hlen : 2 ≤ len a) :
    (a, handlerOf a ga) ∈ (registerRoutes "" [] (some server)).1
    ∧ ∀ (b : String) (gb : PathGroup), (b, gb) ∈ ga.entries →
        (a ++ b, handlerOf (a ++ b) gb) ∈ (registerRoutes "" [] (some server)).1 := by
  simp only [registerRoutes] at hok ⊢
  obtain ⟨h1, h2, h3⟩ := rangeServer_entry server "" hok a ga ha
  simp only [normBase_empty, empty_append] at h1 h2 h3
  refine ⟨h1, ?_⟩
  intro b gb hb
  obtain ⟨k1, _, _⟩ := rangeServer_entry ga.entries a h2 b gb hb
  rw [normBase_of_two_le a hlen] at k1
  exact h3 _ k1

/-- C8 at the tree `"/a"` over `"/b"`: the patterns installed are `"/a/b"`
and `"/a"`. -/
theorem two_level_composition_witness :
    (registerRoutes "" [] (some [("/a", .mk [getRoute] (some [("/b", .mk [getRoute] none)]))])).2
      = none
    ∧ 2 ≤ len "/a"
    ∧ "/a" ++ "/b" = "/a/b"
    ∧ (registerRoutes "" []
        (some [("/a", .mk [getRoute] (some [("/b", .mk [getRoute] none)]))])).1.map Prod.fst
        = ["/a/b", "/a"]
    ∧ ("/a", handlerOf "/a" (.mk [getRoute] (some [("/b", .mk [getRoute] none)])))
        ∈ (registerRoutes "" []
            (some [("/a", .mk [getRoute] (some [("/b", .mk [getRoute] none)]))])).1
    ∧ ∀ (b : String) (gb : PathGroup),
        (b, gb) ∈ (PathGroup.mk [getRoute] (some [("/b", .mk [getRoute] none)])).entries →
        ("/a" ++ b, handlerOf ("/a" ++ b) gb)
          ∈ (registerRoutes "" []
              (some [("/a", .mk [getRoute] (some [("/b", .mk [getRoute] none)]))])).1 :=
  ⟨by decide, by decide, by decide, by decide,
    two_level_composition [("/a", .mk [getRoute] (some [("/b", .mk [getRoute] none)]))]
      (by decide) "/a" (.mk [getRoute] (some [("/b", .mk [getRoute] none)]))
      (List.mem_cons_self _ _) (by decide)⟩

/-- C9: for every tree that has the top-level key `"/"` and whose registration
from the empty base succeeds, the root group is installed at `"/"`, every key
`c` of the children of the root is installed at exactly `c`, and when `c` has
length at least 2 every key `k` of the children of `c` is installed at
`c ++ k`. -/
theorem root_slash_normalization (server : jsonServer)
    (hok : (registerRoutes "" [] (some server)).2 = none)
    (root : PathGroup) (hroot : ("/", root) ∈ server) :
    ("/", handlerOf "/" root) ∈ (registerRoutes "" [] (some server)).1
    ∧ ∀ (c : String) (gc : PathGroup), (c, gc) ∈ root.entries →
        (c, handlerOf c gc) ∈ (registerRoutes "" [] (some server)).1
        ∧ (2 ≤ len c → ∀ (k : String) (gk : PathGroup), (k, gk) ∈ gc.entries →
            (c ++ k, handlerOf (c ++ k) gk) ∈ (registerRoutes "" [] (some server)).1) := by
  simp only [registerRoutes] at hok ⊢
  obtain ⟨h1, h2, h3⟩ := rangeServer_entry server "" hok "/" root hroot
  simp only [normBase_empty, empty_append] at h1 h2 h3
  refine ⟨h1, ?_⟩
  intro c gc hc
  obtain ⟨k1, k2, k3⟩ := rangeServer_entry root.entries "/" h2 c gc hc
  simp only [normBase_slash, empty_append] at k1 k2 k3
  refine ⟨h3 _ k1, ?_⟩
  intro hlen k gk hk
  obtain ⟨j1, _, _⟩ := rangeServer_entry gc.entries c k2 k gk hk
  rw [normBase_of_two_le c hlen] at j1
  exact h3 _ (k3 _ j1)

/-- C9 at the tree of the test: the patterns installed are exactly `"/"`,
`"/newpath"` and `"/newpath/newpath2"`. -/
theorem root_slash_normalization_witness :
    (registerRoutes "" [] (some testServer)).2 = none
    ∧ ("/", rootGroup) ∈ testServer
    ∧ (registerRoutes "" [] (some testServer)).1
        = [("/newpath/newpath2", handlerOf "/newpath/newpath2" newpath2Group),
           ("/newpath", handlerOf "/newpath" newpathGroup),
           ("/", handlerOf "/" rootGroup)]
    ∧ ("/", handlerOf "/" rootGroup) ∈ (registerRoutes "" [] (some testServer)).1
    ∧ ∀ (c : String) (gc : PathGroup), (c, gc) ∈ rootGroup.entries →
        (c, handlerOf c gc) ∈ (registerRoutes "" [] (some testServer)).1
        ∧ (2 ≤ len c → ∀ (k : String) (gk : PathGroup), (k, gk) ∈ gc.entries →
            (c ++ k, handlerOf (c ++ k) gk) ∈ (registerRoutes "" [] (some testServer)).1) :=
  ⟨by decide, List.mem_cons_self _ _, by decide,
    root_slash_normalization testServer (by decide) rootGroup (List.mem_cons_self _ _)⟩

/-- C10: for every base and every mux, `registerRoutes` called with a nil tree
or with a tree without keys returns no error and leaves the mux as it was. -/
theorem terminal_case (base : String) (mux : ServeMux) :
    registerRoutes base mux none = (mux, none)
    ∧ registerRoutes base mux (some []) = (mux, none) := by
  simp [registerRoutes, rangeServer]

/-! ## The shape of a successful registration -/

/-- A successful run of the loop on a non-empty map: the children of the first
entry are registered from `normBase base ++ (normBase base ++ seg)`, then the
entry is installed at `normBase base ++ seg`, then the remaining entries are
visited with the base `normBase base`. -/
theorem rangeServer_success_cons (base seg : String) (g : PathGroup)
    (rest : List (String × PathGroup))
    (hok : (rangeServer base [] ((seg, g) :: rest)).2 = none) :
    (registerRoutes (normBase base ++ (normBase base ++ seg)) [] g.Children).2 = none
    ∧ (rangeServer (normBase base) [] rest).2 = none
    ∧ (rangeServer base [] ((seg, g) :: rest)).1
        = (registerRoutes (normBase base ++ (normBase base ++ seg)) [] g.Children).1
          ++ (normBase base ++ seg, handlerOf (normBase base ++ seg) g)
            :: (rangeServer (normBase base) [] rest).1 := by
  by_cases hp : endsWithSlash seg = true
  · rw [rangeServer_bad base seg g rest [] hp] at hok
    simp at hok
  · have hp2 : endsWithSlash seg = false := by simpa using hp
    rw [rangeServer_step base seg g rest hp2] at hok ⊢
    rcases h0 : registerRoutes (normBase base ++ (normBase base ++ seg)) [] g.Children
      with ⟨m0, _ | e0⟩
    · rw [h0] at hok
      exact ⟨rfl, hok, rfl⟩
    · rw [h0] at hok
      simp at hok

mutual
/-- On success one handler is installed for each group of the tree. -/
theorem rangeServer_length : ∀ (server : List (String × PathGroup)) (base : String),
    (rangeServer base [] server).2 = none →
      (rangeServer base [] server).1.length = (groupsOf server).length
  | [], base, _ => by simp [rangeServer, groupsOf]
  | (seg, .mk hs ch) :: rest, base, hok => by
    obtain ⟨h1, h2, h3⟩ := rangeServer_success_cons base seg (.mk hs ch) rest hok
    simp only [PathGroup.Children] at h1 h3
    have ih1 := registerRoutes_length ch hs _ h1
    have ih2 := rangeServer_length rest _ h2
    rw [h3]
    simp only [List.length_append, List.length_cons, groupsOf, ih1, ih2, List.cons_append]
    omega
theorem registerRoutes_length : ∀ (server : Option (List (String × PathGroup)))
    (hs : List Route) (base : String),
    (registerRoutes base [] server).2 = none →
      (registerRoutes base [] server).1.length = (groupsBelow (.mk hs server)).length
  | none, hs, base, _ => by simp [registerRoutes, groupsBelow]
  | some server, hs, base, hok => by
    simp only [registerRoutes] at hok ⊢
    simp only [groupsBelow]
    exact rangeServer_length server base hok
end

mutual
/-- On success the handlers are installed in the order descendants, group,
later siblings: the installed sequence matches `postOrder` position by
position. -/
theorem rangeServer_postOrder : ∀ (server : List (String × PathGroup)) (base : String),
    (rangeServer base [] server).2 = none →
      List.Forall₂ (fun e g => e.2 = handlerOf e.1 g)
        (rangeServer base [] server).1 (postOrder server)
  | [], base, _ => by simp [rangeServer, postOrder]
  | (seg, .mk hs ch) :: rest, base, hok => by
    obtain ⟨h1, h2, h3⟩ := rangeServer_success_cons base seg (.mk hs ch) rest hok
    simp only [PathGroup.Children] at h1 h3
    have ih1 := registerRoutes_postOrder ch hs _ h1
    have ih2 := rangeServer_postOrder rest _ h2
    rw [h3]
    simp only [postOrder]
    exact List.rel_append ih1 (List.Forall₂.cons rfl ih2)
theorem registerRoutes_postOrder : ∀ (server : Option (List (String × PathGroup)))
    (hs : List Route) (base : String),
    (registerRoutes base [] server).2 = none →
      List.Forall₂ (fun e g => e.2 = handlerOf e.1 g)
        (registerRoutes base [] server).1 (postOrderBelow (.mk hs server))
  | none, hs, base, _ => by simp [registerRoutes, postOrderBelow]
  | some server, hs, base, hok => by
    simp only [registerRoutes] at hok ⊢
    simp only [postOrderBelow]
    exact rangeServer_postOrder server base hok
end

/-! ## The order of the siblings -/

theorem rangeServer_ok_iff (base : String) (mux : ServeMux)
    (server : List (String × PathGroup)) :
    (rangeServer base mux server).2 = none ↔ containsInvalid server = false := by
  have h := rangeServer_err_iff server base mux
  cases hc : containsInvalid server
  · rw [hc] at h
    simpa using h
  · rw [hc] at h
    have : (rangeServer base mux server).2 ≠ none := Option.isSome_iff_ne_none.1 h
    simp [this]

theorem containsInvalid_cons (seg : String) (g : PathGroup)
    (rest : List (String × PathGroup)) :
    containsInvalid ((seg, g) :: rest)
      = (invalidSegment seg || (segmentsBelow g).any invalidSegment || containsInvalid rest) := by
  simp [containsInvalid, segmentsOf, List.any_append, Bool.or_assoc]

theorem containsInvalid_cons_false (seg : String) (g : PathGroup)
    (rest : List (String × PathGroup)) (h : containsInvalid ((seg, g) :: rest) = false) :
    (segmentsBelow g).any invalidSegment = false ∧ containsInvalid rest = false := by
  rw [containsInvalid_cons] at h
  simp only [Bool.or_eq_false_iff] at h
  exact ⟨h.1.2, h.2⟩

/-- The installed handlers of a successful run, split at the first entry. -/
theorem rangeServer_valid_cons (base seg : String) (g : PathGroup)
    (rest : List (String × PathGroup)) (h : containsInvalid ((seg, g) :: rest) = false) :
    (rangeServer base [] ((seg, g) :: rest)).1
      = (registerRoutes (normBase base ++ (normBase base ++ seg)) [] g.Children).1
        ++ (normBase base ++ seg, handlerOf (normBase base ++ seg) g)
          :: (rangeServer (normBase base) [] rest).1 :=
  (rangeServer_success_cons base seg g rest ((rangeServer_ok_iff base [] _).2 h)).2.2

/-- Visiting the maps of a tree in another order changes neither whether
registration fails nor, when it succeeds, the installed handlers up to their
order. -/
theorem sameUpToOrder_invariant {s1 s2 : List (String × PathGroup)}
    (h : SameUpToOrder s1 s2) :
    containsInvalid s1 = containsInvalid s2
    ∧ ∀ base, containsInvalid s1 = false →
        List.Perm (rangeServer base [] s1).1 (rangeServer base [] s2).1 := by
  induction h with
  | nil => exact ⟨rfl, fun _ _ => List.Perm.refl _⟩
  | leaf seg g _ ih =>
    refine ⟨by rw [containsInvalid_cons, containsInvalid_cons, ih.1], ?_⟩
    intro base hv
    have hv2 := hv
    rw [containsInvalid_cons, ih.1, ← containsInvalid_cons] at hv2
    rw [rangeServer_valid_cons base seg g _ hv, rangeServer_valid_cons base seg g _ hv2]
    exact List.Perm.append_left _
      (List.Perm.cons _ (ih.2 _ (containsInvalid_cons_false _ _ _ hv).2))
  | node seg hs _ _ ihc ihl =>
    have hc : ∀ (a l : List (String × PathGroup)),
        containsInvalid ((seg, PathGroup.mk hs (some a)) :: l)
          = (invalidSegment seg || containsInvalid a || containsInvalid l) := by
      intro a l
      rw [containsInvalid_cons]
      simp [segmentsBelow, containsInvalid]
    refine ⟨by rw [hc, hc, ihc.1, ihl.1], ?_⟩
    intro base hv
    have hv2 := hv
    rw [hc, ihc.1, ihl.1, ← hc] at hv2
    rw [rangeServer_valid_cons base seg _ _ hv, rangeServer_valid_cons base seg _ _ hv2]
    have hparts := containsInvalid_cons_false _ _ _ hv
    simp only [PathGroup.Children, registerRoutes, handlerOf, PathGroup.Handlers]
    refine List.Perm.append (ihc.2 _ ?_) (List.Perm.cons _ (ihl.2 _ hparts.2))
    simpa [segmentsBelow, containsInvalid] using hparts.1
  | swap e1 e2 l =>
    rcases e1 with ⟨s1, g1⟩
    rcases e2 with ⟨s2, g2⟩
    have hcomm : containsInvalid ((s1, g1) :: (s2, g2) :: l)
        = containsInvalid ((s2, g2) :: (s1, g1) :: l) := by
      simp only [containsInvalid_cons]
      cases invalidSegment s1 <;> cases invalidSegment s2 <;>
        cases (segmentsBelow g1).any invalidSegment <;>
        cases (segmentsBelow g2).any invalidSegment <;> simp
    refine ⟨hcomm, ?_⟩
    intro base hv
    have hv2 := hv
    rw [hcomm] at hv2
    have hvt := (containsInvalid_cons_false _ _ _ hv).2
    have hvt2 := (containsInvalid_cons_false _ _ _ hv2).2
    rw [rangeServer_valid_cons base s1 g1 _ hv, rangeServer_valid_cons base s2 g2 _ hv2,
      rangeServer_valid_cons (normBase base) s2 g2 _ hvt,
      rangeServer_valid_cons (normBase base) s1 g1 _ hvt2, normBase_idem]
    have key : ∀ (A B R : List (String × Handler)) (a b : String × Handler),
        List.Perm (A ++ a :: (B ++ b :: R)) (B ++ b :: (A ++ a :: R)) := by
      intro A B R a b
      have := List.perm_append_comm_assoc (A ++ [a]) (B ++ [b]) R
      simpa [List.append_assoc] using this
    exact key _ _ _ _ _
  | trans _ _ ih1 ih2 =>
    refine ⟨ih1.1.trans ih2.1, ?_⟩
    intro base hv
    exact (ih1.2 base hv).trans (ih2.2 base (ih1.1 ▸ hv))

/-! ## The calls of a route closure -/

theorem takeWhile_routeClosure (R : Route) :
    (routeClosure R).takeWhile Effect.isHeaderSet
      = R.Headers.map (fun kv => Effect.HeaderSet kv.1 kv.2) := by
  unfold routeClosure
  induction R.Headers with
  | nil => simp [List.takeWhile, Effect.isHeaderSet]
  | cons kv rest ih => simp [List.takeWhile, Effect.isHeaderSet, ih]

theorem dropWhile_routeClosure (R : Route) :
    (routeClosure R).dropWhile Effect.isHeaderSet
      = [Effect.WriteHeader R.Status, Effect.Write R.Response] := by
  unfold routeClosure
  induction R.Headers with
  | nil => simp [List.dropWhile, Effect.isHeaderSet]
  | cons kv rest ih => simp [List.dropWhile, Effect.isHeaderSet, ih]

theorem countP_isWriteHeader_routeClosure (R : Route) :
    (routeClosure R).countP Effect.isWriteHeader = 1 := by
  unfold routeClosure
  induction R.Headers with
  | nil => simp [List.countP_cons, Effect.isWriteHeader]
  | cons kv rest ih => simp [List.countP_cons, Effect.isWriteHeader]

theorem countP_isWrite_routeClosure (R : Route) :
    (routeClosure R).countP Effect.isWrite = 1 := by
  unfold routeClosure
  induction R.Headers with
  | nil => simp [List.countP_cons, Effect.isWrite]
  | cons kv rest ih => simp [List.countP_cons, Effect.isWrite]

/-! ## The claims, continued -/

/-- C11: whether registration fails is decided by the segments alone, so a
group that names a method twice causes no error; and when registration
succeeds, for every group of the tree whose handlers are `pre ++ R :: post`
with an earlier route of the method of `R` in `pre` and none in `post`, the
installed handler answers a request with its pattern and that method by the
closure of `R`, the last route of the method, and by the closure of no earlier
route that differs from it. -/
theorem last_write_wins (base : String) (server : jsonServer) (g : PathGroup)
    (hg : g ∈ groupsOf server) (pre post : List Route) (R : Route)
    (hsplit : g.Handlers = pre ++ R :: post)
    (_hdup : ∃ R1 ∈ pre, R1.Method = R.Method)
    (hlast : ∀ R2 ∈ post, R2.Method ≠ R.Method) :
    ((registerRoutes base [] (some server)).2 = none ↔ containsInvalid server = false)
    ∧ ((registerRoutes base [] (some server)).2 = none →
        ∃ P, (P, handlerOf P g) ∈ (registerRoutes base [] (some server)).1 ∧
          ∀ req : Request, req.Path = P → req.Method = R.Method →
            (handlerOf P g).ServeHTTP req = routeClosure R
            ∧ statusOf ((handlerOf P g).ServeHTTP req) = some R.Status
            ∧ headersOf ((handlerOf P g).ServeHTTP req) = R.Headers
            ∧ bodyOf ((handlerOf P g).ServeHTTP req) = R.Response
            ∧ ∀ R1 ∈ pre, routeClosure R1 ≠ routeClosure R →
                (handlerOf P g).ServeHTTP req ≠ routeClosure R1) := by
  simp only [registerRoutes]
  refine ⟨rangeServer_ok_iff base [] server, ?_⟩
  intro hok
  obtain ⟨P, hP⟩ := rangeServer_installs_all server base hok g hg
  refine ⟨P, hP, ?_⟩
  intro req hpath hmeth
  have hserve : (handlerOf P g).ServeHTTP req = routeClosure R := by
    rw [ServeHTTP_of_path_eq _ _ (by simpa [handlerOf] using hpath)]
    simp only [handlerOf, hsplit, hmeth]
    rw [buildMethods_get_last [] pre post R hlast]
  rw [hserve]
  exact ⟨rfl, statusOf_routeClosure R, headersOf_routeClosure R, bodyOf_routeClosure R,
    fun R1 _ hne he => hne he.symm⟩

/-- C11 at a group whose handlers are `GET`, `POST`, `GET`: registration
succeeds and a `GET` is answered by the second `GET` route (status 201, body
`second`). -/
theorem last_write_wins_witness :
    duplicateGroup ∈ groupsOf duplicateGet
    ∧ (registerRoutes "" [] (some duplicateGet)).2 = none
    ∧ (handlerOf "/dup" duplicateGroup).ServeHTTP
        { Method := "GET", Path := "/dup", Header := [], Body := "" }
        = [Effect.HeaderSet "X-Which" "second", Effect.WriteHeader 201, Effect.Write "second"]
    ∧ ((registerRoutes "" [] (some duplicateGet)).2 = none →
        ∃ P, (P, handlerOf P duplicateGroup) ∈ (registerRoutes "" [] (some duplicateGet)).1 ∧
          ∀ req : Request, req.Path = P → req.Method = secondGet.Method →
            (handlerOf P duplicateGroup).ServeHTTP req = routeClosure secondGet
            ∧ statusOf ((handlerOf P duplicateGroup).ServeHTTP req) = some secondGet.Status
            ∧ headersOf ((handlerOf P duplicateGroup).ServeHTTP req) = secondGet.Headers
            ∧ bodyOf ((handlerOf P duplicateGroup).ServeHTTP req) = secondGet.Response
            ∧ ∀ R1 ∈ [firstGet, postRoute], routeClosure R1 ≠ routeClosure secondGet →
                (handlerOf P duplicateGroup).ServeHTTP req ≠ routeClosure R1) :=
  ⟨by simp [duplicateGet, groupsOf], by decide, by decide,
    (last_write_wins "" duplicateGet duplicateGroup (by simp [duplicateGet, groupsOf])
      [firstGet, postRoute] [] secondGet rfl ⟨firstGet, by simp, rfl⟩ (by simp)).2⟩

/-- C12: for every base and every two trees that differ only in the order in
which the entries of their maps (at any depth) are visited, registration
succeeds on one exactly when it succeeds on the other, and then the two
installed sequences of (pattern, handler) are permutations of each other; and
the loop started from `normBase base` does what the loop started from `base`
does, so every sibling is given the same normalized base. -/
theorem sibling_order_independence (base : String) (s1 s2 : jsonServer)
    (h : SameUpToOrder s1 s2) :
    ((registerRoutes base [] (some s1)).2 = none ↔ (registerRoutes base [] (some s2)).2 = none)
    ∧ ((registerRoutes base [] (some s1)).2 = none →
        List.Perm (registerRoutes base [] (some s1)).1 (registerRoutes base [] (some s2)).1)
    ∧ (∀ (mux : ServeMux) (server : jsonServer),
        rangeServer (normBase base) mux server = rangeServer base mux server) := by
  obtain ⟨h1, h2⟩ := sameUpToOrder_invariant h
  simp only [registerRoutes]
  refine ⟨?_, ?_, fun mux server => rangeServer_normBase base mux server⟩
  · rw [rangeServer_ok_iff, rangeServer_ok_iff, h1]
  · intro hok
    exact h2 base ((rangeServer_ok_iff base [] s1).1 hok)

/-- C12 at the map with the keys `"/a"` and `"/b"`, visited in both orders: the
patterns come out in different orders, the installed handlers are the same up
to order. -/
theorem sibling_order_independence_witness :
    SameUpToOrder siblingsAB siblingsBA
    ∧ (registerRoutes "" [] (some siblingsAB)).1.map Prod.fst = ["/a/c", "/a", "/b"]
    ∧ (registerRoutes "" [] (some siblingsBA)).1.map Prod.fst = ["/b", "/a/c", "/a"]
    ∧ ((registerRoutes "" [] (some siblingsAB)).2 = none
        ↔ (registerRoutes "" [] (some siblingsBA)).2 = none)
    ∧ ((registerRoutes "" [] (some siblingsAB)).2 = none →
        List.Perm (registerRoutes "" [] (some siblingsAB)).1
          (registerRoutes "" [] (some siblingsBA)).1)
    ∧ (∀ (mux : ServeMux) (server : jsonServer),
        rangeServer (normBase "") mux server = rangeServer "" mux server) :=
  ⟨SameUpToOrder.swap _ _ _, by decide, by decide,
    sibling_order_independence "" siblingsAB siblingsBA (SameUpToOrder.swap _ _ _)⟩

/-- C14 at the tree with `"/"` nested under `"/a"`: registration from the empty
base succeeds and the patterns installed are `"/a/"` and `"/a"`; the first is
not `"/"` and ends in `'/'`. -/
theorem nested_root_trailing_slash :
    (registerRoutes "" [] (some slashUnderA)).2 = none
    ∧ (registerRoutes "" [] (some slashUnderA)).1.map Prod.fst = ["/a/", "/a"]
    ∧ ("/a/", handlerOf "/a/" (.mk [getRoute] none))
        ∈ (registerRoutes "" [] (some slashUnderA)).1
    ∧ "/a/" ≠ "/" ∧ lastIsSlash "/a/" = true := by
  decide

theorem data_ne_nil_of_ne_empty (s : String) (h : s ≠ "") : s.data ≠ [] := by
  intro he
  exact h (String.ext he)

/-- C15: for every base `b` and every tree whose registration from `b`
succeeds, each top-level key `s` is installed at exactly `normBase b ++ s`, a
plain concatenation, where `normBase b` is `b` without one leading `'/'` when
`len b < 2` and `b` otherwise; for `b = ""` and `b = "/"` the pattern is `s`,
and for `len b ≥ 2` it is `b ++ s`. -/
theorem top_level_path (base : String) (server : jsonServer)
    (hok : (registerRoutes base [] (some server)).2 = none)
    (s : String) (g : PathGroup) (hmem : (s, g) ∈ server) :
    (normBase base ++ s, handlerOf (normBase base ++ s) g)
        ∈ (registerRoutes base [] (some server)).1
    ∧ normBase base = (if len base < 2 then TrimPrefixSlash base else base)
    ∧ (base = "" ∨ base = "/" → normBase base ++ s = s)
    ∧ (2 ≤ len base → normBase base ++ s = base ++ s) := by
  simp only [registerRoutes] at hok ⊢
  refine ⟨(rangeServer_entry server base hok s g hmem).1, rfl, ?_, ?_⟩
  · intro hb
    rcases hb with hb | hb
    · rw [hb, normBase_empty, empty_append]
    · rw [hb, normBase_slash, empty_append]
  · intro hl
    rw [normBase_of_two_le base hl]

/-- C15 at the base `"/x"` and the map with the keys `"/a"` and `"/b"`. -/
theorem top_level_path_witness :
    (registerRoutes "/x" [] (some siblingsAB)).2 = none
    ∧ ("/b", PathGroup.mk [postRoute] none) ∈ siblingsAB
    ∧ normBase "/x" ++ "/b" = "/x/b"
    ∧ (normBase "/x" ++ "/b", handlerOf (normBase "/x" ++ "/b") (.mk [postRoute] none))
        ∈ (registerRoutes "/x" [] (some siblingsAB)).1
    ∧ normBase "/x" = (if len "/x" < 2 then TrimPrefixSlash "/x" else "/x")
    ∧ ("/x" = "" ∨ "/x" = "/" → normBase "/x" ++ "/b" = "/b")
    ∧ (2 ≤ len "/x" → normBase "/x" ++ "/b" = "/x" ++ "/b") :=
  ⟨by decide, by simp [siblingsAB], by decide,
    top_level_path "/x" siblingsAB (by decide) "/b" (.mk [postRoute] none)
      (by simp [siblingsAB])⟩

/-- C16: for every base `b`, every segment `s` that passes the check of line 67
and every group, the loop first installs for the children of the group exactly
what `registerRoutes` installs on them from the base
`normBase b ++ (normBase b ++ s)`, that is from `normBase b ++ absolute`; on
success it then installs the group at `absolute = normBase b ++ s` and goes on
with the later siblings.  That base is `b ++ (b ++ s)` when `len b ≥ 2`, and
it differs from `absolute` whenever `normBase b` is not empty. -/
theorem recursive_base (base s : String) (g : PathGroup) (rest : List (String × PathGroup))
    (hs : endsWithSlash s = false) :
    (∃ after, (rangeServer base [] ((s, g) :: rest)).1
        = (registerRoutes (normBase base ++ (normBase base ++ s)) [] g.Children).1 ++ after)
    ∧ ((rangeServer base [] ((s, g) :: rest)).2 = none →
        (rangeServer base [] ((s, g) :: rest)).1
          = (registerRoutes (normBase base ++ (normBase base ++ s)) [] g.Children).1
            ++ (normBase base ++ s, handlerOf (normBase base ++ s) g)
              :: (rangeServer (normBase base) [] rest).1)
    ∧ (2 ≤ len base → normBase base ++ (normBase base ++ s) = base ++ (base ++ s))
    ∧ (normBase base ≠ "" → normBase base ++ (normBase base ++ s) ≠ normBase base ++ s) := by
  refine ⟨?_, fun hok => (rangeServer_success_cons base s g rest hok).2.2, ?_, ?_⟩
  · rw [rangeServer_step base s g rest hs]
    rcases registerRoutes (normBase base ++ (normBase base ++ s)) [] g.Children
      with ⟨m0, _ | e0⟩
    · exact ⟨_, rfl⟩
    · exact ⟨[], by simp⟩
  · intro hl
    rw [normBase_of_two_le base hl]
  · intro hne he
    have hd := congrArg (fun t => t.data.length) he
    simp only [String.data_append, List.length_append] at hd
    have hpos : 0 < (normBase base).data.length :=
      List.length_pos.2 (data_ne_nil_of_ne_empty _ hne)
    omega

/-- C16 at the base `"/x"`, the segment `"/a"` and its child `"/c"`: the child
is installed at `"/x/x/a/c"`, the group at `"/x/a"`. -/
theorem recursive_base_witness :
    endsWithSlash "/a" = false
    ∧ (registerRoutes "/x" [] (some siblingsAB)).1.map Prod.fst = ["/x/x/a/c", "/x/a", "/x/b"]
    ∧ (registerRoutes ("/x" ++ ("/x" ++ "/a")) []
        (PathGroup.mk [getRoute] (some [("/c", .mk [getRoute] none)])).Children).1.map Prod.fst
        = ["/x/x/a/c"]
    ∧ (∃ after, (rangeServer "/x" []
          (("/a", .mk [getRoute] (some [("/c", .mk [getRoute] none)]))
            :: [("/b", .mk [postRoute] none)])).1
        = (registerRoutes (normBase "/x" ++ (normBase "/x" ++ "/a")) []
            (PathGroup.mk [getRoute] (some [("/c", .mk [getRoute] none)])).Children).1 ++ after)
    ∧ ((rangeServer "/x" []
          (("/a", .mk [getRoute] (some [("/c", .mk [getRoute] none)]))
            :: [("/b", .mk [postRoute] none)])).2 = none →
        (rangeServer "/x" []
          (("/a", .mk [getRoute] (some [("/c", .mk [getRoute] none)]))
            :: [("/b", .mk [postRoute] none)])).1
          = (registerRoutes (normBase "/x" ++ (normBase "/x" ++ "/a")) []
              (PathGroup.mk [getRoute] (some [("/c", .mk [getRoute] none)])).Children).1
            ++ (normBase "/x" ++ "/a", handlerOf (normBase "/x" ++ "/a")
                  (.mk [getRoute] (some [("/c", .mk [getRoute] none)])))
              :: (rangeServer (normBase "/x") [] [("/b", .mk [postRoute] none)]).1)
    ∧ (2 ≤ len "/x" → normBase "/x" ++ (normBase "/x" ++ "/a") = "/x" ++ ("/x" ++ "/a"))
    ∧ (normBase "/x" ≠ "" → normBase "/x" ++ (normBase "/x" ++ "/a") ≠ normBase "/x" ++ "/a") :=
  ⟨by decide, by decide, by decide,
    recursive_base "/x" "/a" (.mk [getRoute] (some [("/c", .mk [getRoute] none)]))
      [("/b", .mk [postRoute] none)] (by decide)⟩

/-- C17: `registerRoutes` returns on every base and every tree (it is a total
function, defined by recursion on the tree), and when it returns no error the
number of handlers it has installed is the number of groups of the tree, all
depths counted. -/
theorem one_install_per_node (base : String) (server : jsonServer) :
    (∃ mux err, registerRoutes base [] (some server) = (mux, err))
    ∧ ((registerRoutes base [] (some server)).2 = none →
        (registerRoutes base [] (some server)).1.length = (groupsOf server).length) := by
  refine ⟨⟨_, _, rfl⟩, ?_⟩
  simp only [registerRoutes]
  exact rangeServer_length server base

/-- C18: for every base and every tree whose registration succeeds, the
handlers are installed in post-order: position by position the installed
sequence is the sequence of the groups in which the descendants of a group
come first, then the group, then the siblings visited after it. -/
theorem children_before_parent (base : String) (server : jsonServer)
    (hok : (registerRoutes base [] (some server)).2 = none) :
    List.Forall₂ (fun e g => e.2 = handlerOf e.1 g)
      (registerRoutes base [] (some server)).1 (postOrder server) := by
  simp only [registerRoutes] at hok ⊢
  exact rangeServer_postOrder server base hok

/-- C18 at the tree of the test: `"/newpath/newpath2"` is installed first, then
`"/newpath"`, then `"/"`. -/
theorem children_before_parent_witness :
    (registerRoutes "" [] (some testServer)).2 = none
    ∧ (registerRoutes "" [] (some testServer)).1.map Prod.fst
        = ["/newpath/newpath2", "/newpath", "/"]
    ∧ postOrder testServer = [newpath2Group, newpathGroup, rootGroup]
    ∧ List.Forall₂ (fun e g => e.2 = handlerOf e.1 g)
        (registerRoutes "" [] (some testServer)).1 (postOrder testServer) :=
  ⟨by decide, by decide, rfl, children_before_parent "" testServer (by decide)⟩

/-- C19: for every handler, every request with the path of the handler and
every route the table of the handler holds under the method of the request,
the calls on the response writer are: the configured headers, each set to its
value, in the order of the visit of the map and nothing else before the
status; then `WriteHeader` with the status of the route, once; then `Write`
with the response bytes, once; no header is set after the status. -/
theorem write_order (h : Handler) (req : Request) (R : Route)
    (hpath : req.Path = h.path) (hget : h.methods.get req.Method = some R) :
    h.ServeHTTP req
      = R.Headers.map (fun kv => Effect.HeaderSet kv.1 kv.2)
        ++ [Effect.WriteHeader R.Status, Effect.Write R.Response]
    ∧ (h.ServeHTTP req).takeWhile Effect.isHeaderSet
        = R.Headers.map (fun kv => Effect.HeaderSet kv.1 kv.2)
    ∧ (h.ServeHTTP req).dropWhile Effect.isHeaderSet
        = [Effect.WriteHeader R.Status, Effect.Write R.Response]
    ∧ (h.ServeHTTP req).countP Effect.isWriteHeader = 1
    ∧ (h.ServeHTTP req).countP Effect.isWrite = 1 := by
  have hs : h.ServeHTTP req = routeClosure R := by
    rw [ServeHTTP_of_path_eq h req hpath, hget]
  rw [hs]
  exact ⟨rfl, takeWhile_routeClosure R, dropWhile_routeClosure R,
    countP_isWriteHeader_routeClosure R, countP_isWrite_routeClosure R⟩

/-- C19 at the handler of `"/newpath/newpath2"` and the request of the test. -/
theorem write_order_witness :
    testRequest.Path = (handlerOf "/newpath/newpath2" newpath2Group).path
    ∧ (handlerOf "/newpath/newpath2" newpath2Group).methods.get testRequest.Method
        = some postRoute
    ∧ (handlerOf "/newpath/newpath2" newpath2Group).ServeHTTP testRequest
        = postRoute.Headers.map (fun kv => Effect.HeaderSet kv.1 kv.2)
          ++ [Effect.WriteHeader postRoute.Status, Effect.Write postRoute.Response]
    ∧ ((handlerOf "/newpath/newpath2" newpath2Group).ServeHTTP testRequest).takeWhile
          Effect.isHeaderSet
        = postRoute.Headers.map (fun kv => Effect.HeaderSet kv.1 kv.2)
    ∧ ((handlerOf "/newpath/newpath2" newpath2Group).ServeHTTP testRequest).dropWhile
          Effect.isHeaderSet
        = [Effect.WriteHeader postRoute.Status, Effect.Write postRoute.Response]
    ∧ ((handlerOf "/newpath/newpath2" newpath2Group).ServeHTTP testRequest).countP
          Effect.isWriteHeader = 1
    ∧ ((handlerOf "/newpath/newpath2" newpath2Group).ServeHTTP testRequest).countP
          Effect.isWrite = 1 :=
  ⟨by decide, by decide,
    write_order (handlerOf "/newpath/newpath2" newpath2Group) testRequest postRoute
      (by decide) (by decide)⟩

/-- C20: for every base, every tree whose registration succeeds and every group
of it without handlers, a handler is still installed for the group, and that
handler answers every request whose path is its pattern, whatever the method,
with status 405, no header and no body, and answers 404 exactly when the path
differs. -/
theorem group_without_handlers (base : String) (server : jsonServer)
    (hok : (registerRoutes base [] (some server)).2 = none)
    (g : PathGroup) (hg : g ∈ groupsOf server) (hempty : g.Handlers = []) :
    ∃ P, (P, handlerOf P g) ∈ (registerRoutes base [] (some server)).1 ∧
      ∀ req : Request,
        (req.Path = P →
          (handlerOf P g).ServeHTTP req = [Effect.WriteHeader 405]
          ∧ statusOf ((handlerOf P g).ServeHTTP req) = some 405
          ∧ headersOf ((handlerOf P g).ServeHTTP req) = []
          ∧ bodyOf ((handlerOf P g).ServeHTTP req) = "")
        ∧ (req.Path ≠ P → (handlerOf P g).ServeHTTP req = [Effect.NotFound])
        ∧ (statusOf ((handlerOf P g).ServeHTTP req) = some 404 ↔ req.Path ≠ P) := by
  simp only [registerRoutes] at hok ⊢
  obtain ⟨P, hP⟩ := rangeServer_installs_all server base hok g hg
  refine ⟨P, hP, ?_⟩
  intro req
  have h405 : req.Path = P → (handlerOf P g).ServeHTTP req = [Effect.WriteHeader 405] := by
    intro hpath
    rw [ServeHTTP_of_path_eq _ _ (by simpa [handlerOf] using hpath)]
    simp only [handlerOf, hempty, buildMethods]
    rfl
  have h404 : req.Path ≠ P → (handlerOf P g).ServeHTTP req = [Effect.NotFound] :=
    fun hne => ServeHTTP_of_path_ne _ _ (by simpa [handlerOf] using hne)
  refine ⟨?_, h404, ?_⟩
  · intro hpath
    rw [h405 hpath]
    exact ⟨rfl, rfl, rfl, rfl⟩
  · by_cases hpath : req.Path = P
    · rw [h405 hpath]
      simp [statusOf, hpath]
    · rw [h404 hpath]
      simp [statusOf, StatusNotFound, hpath]

/-- C20 at the tree with a group without handlers under `"/api"`: its handler
is installed at `"/api"` and answers a `GET` there with 405. -/
theorem group_without_handlers_witness :
    (registerRoutes "" [] (some carrierOnly)).2 = none
    ∧ carrierGroup ∈ groupsOf carrierOnly
    ∧ carrierGroup.Handlers = []
    ∧ ("/api", handlerOf "/api" carrierGroup) ∈ (registerRoutes "" [] (some carrierOnly)).1
    ∧ (handlerOf "/api" carrierGroup).ServeHTTP
        { Method := "GET", Path := "/api", Header := [], Body := "" }
        = [Effect.WriteHeader 405]
    ∧ ∃ P, (P, handlerOf P carrierGroup) ∈ (registerRoutes "" [] (some carrierOnly)).1 ∧
      ∀ req : Request,
        (req.Path = P →
          (handlerOf P carrierGroup).ServeHTTP req = [Effect.WriteHeader 405]
          ∧ statusOf ((handlerOf P carrierGroup).ServeHTTP req) = some 405
          ∧ headersOf ((handlerOf P carrierGroup).ServeHTTP req) = []
          ∧ bodyOf ((handlerOf P carrierGroup).ServeHTTP req) = "")
        ∧ (req.Path ≠ P → (handlerOf P carrierGroup).ServeHTTP req = [Effect.NotFound])
        ∧ (statusOf ((handlerOf P carrierGroup).ServeHTTP req) = some 404 ↔ req.Path ≠ P) :=
  ⟨by decide, by simp [carrierOnly, groupsOf], rfl, by decide, by decide,
    group_without_handlers "" carrierOnly (by decide) carrierGroup
      (by simp [carrierOnly, groupsOf]) rfl⟩

/-! ## Registration on a transport that refuses some patterns -/

theorem rangeServerOn_cons (refuses : ServeMux → String → Bool) (base : String)
    (mux : ServeMux) (path : String) (g : PathGroup) (rest : List (String × PathGroup)) :
    rangeServerOn refuses base mux ((path, g) :: rest) =
      if endsWithSlash path then
        Outcome.returned mux (some ("path " ++ path ++ " ends with a /"))
      else
        match registerRoutesOn refuses (normBase base ++ (normBase base ++ path)) mux
            g.Children with
        | .panicked mux1 => Outcome.panicked mux1
        | .returned mux1 (some err) => Outcome.returned mux1 (some err)
        | .returned mux1 none =>
          if refuses mux1 (normBase base ++ path) then Outcome.panicked mux1
          else rangeServerOn refuses (normBase base)
            (mux1 ++ [(normBase base ++ path, handlerOf (normBase base ++ path) g)]) rest := by
  cases g with
  | mk hs ch =>
    cases ch <;>
      simp [rangeServerOn, registerChildrenOn, registerRoutesOn, PathGroup.Children]

mutual
/-- Whenever the registration on a transport returns, it returns the mux and the
error that the registration on a transport accepting every pattern gives. -/
theorem rangeServerOn_returned : ∀ (server : List (String × PathGroup))
    (refuses : ServeMux → String → Bool) (base : String) (mux m : ServeMux)
    (err : Option String),
    rangeServerOn refuses base mux server = Outcome.returned m err →
      rangeServer base mux server = (m, err)
  | [], refuses, base, mux, m, err, h => by
    simp only [rangeServerOn, Outcome.returned.injEq] at h
    simp [rangeServer, h.1, h.2]
  | (path, .mk hs ch) :: rest, refuses, base, mux, m, err, h => by
    rw [rangeServerOn_cons] at h
    rw [rangeServer_cons]
    simp only [PathGroup.Children] at h ⊢
    by_cases hp : endsWithSlash path = true
    · simp only [hp, if_true, Outcome.returned.injEq] at h
      simp [hp, h.1, h.2]
    · simp only [hp, Bool.false_eq_true, if_false] at h ⊢
      have ihc := registerRoutesOn_returned ch refuses
        (normBase base ++ (normBase base ++ path)) mux
      rcases h0 : registerRoutesOn refuses (normBase base ++ (normBase base ++ path)) mux ch
        with ⟨m1, _ | e1⟩ | m1
      · rw [h0] at h
        simp only at h
        rw [ihc m1 none h0]
        simp only
        by_cases hr : refuses m1 (normBase base ++ path) = true
        · simp [hr] at h
        · simp only [hr, Bool.false_eq_true, if_false] at h
          exact rangeServerOn_returned rest refuses _ _ m err h
      · rw [h0] at h
        simp only [Outcome.returned.injEq] at h
        rw [ihc m1 (some e1) h0]
        simp [h.1, h.2]
      · rw [h0] at h
        simp at h
theorem registerRoutesOn_returned : ∀ (server : Option (List (String × PathGroup)))
    (refuses : ServeMux → String → Bool) (base : String) (mux m : ServeMux)
    (err : Option String),
    registerRoutesOn refuses base mux server = Outcome.returned m err →
      registerRoutes base mux server = (m, err)
  | none, refuses, base, mux, m, err, h => by
    simp only [registerRoutesOn, Outcome.returned.injEq] at h
    simp [registerRoutes, h.1, h.2]
  | some server, refuses, base, mux, m, err, h => by
    simp only [registerRoutesOn] at h
    simp only [registerRoutes]
    exact rangeServerOn_returned server refuses base mux m err h
end

mutual
/-- On a transport that refuses nothing the registration returns, with the mux
and the error of `rangeServer`. -/
theorem rangeServerOn_accepting : ∀ (server : List (String × PathGroup))
    (refuses : ServeMux → String → Bool) (_ : ∀ mux p, refuses mux p = false)
    (base : String) (mux : ServeMux),
    rangeServerOn refuses base mux server
      = Outcome.returned (rangeServer base mux server).1 (rangeServer base mux server).2
  | [], refuses, _, base, mux => by simp [rangeServerOn, rangeServer]
  | (path, .mk hs ch) :: rest, refuses, hacc, base, mux => by
    rw [rangeServerOn_cons, rangeServer_cons]
    simp only [PathGroup.Children]
    by_cases hp : endsWithSlash path = true
    · simp [hp]
    · simp only [hp, Bool.false_eq_true, if_false]
      rw [registerRoutesOn_accepting ch refuses hacc]
      rcases registerRoutes (normBase base ++ (normBase base ++ path)) mux ch
        with ⟨m1, _ | e1⟩
      · simp only [hacc, Bool.false_eq_true, if_false]
        exact rangeServerOn_accepting rest refuses hacc _ _
      · rfl
theorem registerRoutesOn_accepting : ∀ (server : Option (List (String × PathGroup)))
    (refuses : ServeMux → String → Bool) (_ : ∀ mux p, refuses mux p = false)
    (base : String) (mux : ServeMux),
    registerRoutesOn refuses base mux server
      = Outcome.returned (registerRoutes base mux server).1 (registerRoutes base mux server).2
  | none, refuses, _, base, mux => by simp [registerRoutesOn, registerRoutes]
  | some server, refuses, hacc, base, mux => by
    simp only [registerRoutesOn, registerRoutes]
    exact rangeServerOn_accepting server refuses hacc base mux
end

mutual
/-- On a transport that refuses the patterns it holds, the patterns of the mux
stay pairwise distinct through the registration, however it ends. -/
theorem rangeServerOn_nodup : ∀ (server : List (String × PathGroup))
    (refuses : ServeMux → String → Bool)
    (_ : ∀ mux p, p ∈ mux.map Prod.fst → refuses mux p = true)
    (base : String) (mux : ServeMux), (mux.map Prod.fst).Nodup →
      ((rangeServerOn refuses base mux server).mux.map Prod.fst).Nodup
  | [], refuses, _, base, mux, hm => by simpa [rangeServerOn, Outcome.mux] using hm
  | (path, .mk hs ch) :: rest, refuses, hheld, base, mux, hm => by
    rw [rangeServerOn_cons]
    simp only [PathGroup.Children]
    by_cases hp : endsWithSlash path = true
    · simpa [hp, Outcome.mux] using hm
    · simp only [hp, Bool.false_eq_true, if_false]
      have ihc := registerRoutesOn_nodup ch refuses hheld
        (normBase base ++ (normBase base ++ path)) mux hm
      rcases h0 : registerRoutesOn refuses (normBase base ++ (normBase base ++ path)) mux ch
        with ⟨m1, _ | e1⟩ | m1
      · rw [h0] at ihc
        simp only [Outcome.mux] at ihc
        simp only
        by_cases hr : refuses m1 (normBase base ++ path) = true
        · simpa [hr, Outcome.mux] using ihc
        · simp only [hr, Bool.false_eq_true, if_false]
          apply rangeServerOn_nodup rest refuses hheld
          have hnot : normBase base ++ path ∉ m1.map Prod.fst :=
            fun hmem => hr (hheld m1 _ hmem)
          rw [List.map_append, List.nodup_append]
          refine ⟨ihc, by simp, ?_⟩
          intro p hp1 hp2
          simp only [List.map_cons, List.map_nil, List.mem_singleton] at hp2
          exact hnot (hp2 ▸ hp1)
      · rw [h0] at ihc
        simpa [Outcome.mux] using ihc
      · rw [h0] at ihc
        simpa [Outcome.mux] using ihc
theorem registerRoutesOn_nodup : ∀ (server : Option (List (String × PathGroup)))
    (refuses : ServeMux → String → Bool)
    (_ : ∀ mux p, p ∈ mux.map Prod.fst → refuses mux p = true)
    (base : String) (mux : ServeMux), (mux.map Prod.fst).Nodup →
      ((registerRoutesOn refuses base mux server).mux.map Prod.fst).Nodup
  | none, refuses, _, base, mux, hm => by simpa [registerRoutesOn, Outcome.mux] using hm
  | some server, refuses, hheld, base, mux, hm => by
    simp only [registerRoutesOn]
    exact rangeServerOn_nodup server refuses hheld base mux hm
end

theorem refusesEmptyOrHeld_held (mux : ServeMux) (p : String)
    (h : p ∈ mux.map Prod.fst) : refusesEmptyOrHeld mux p = true := by
  have hc : (mux.map Prod.fst).contains p = true := by
    rw [List.contains_iff_exists_mem_beq]
    exact ⟨p, h, by simp⟩
  simp only [refusesEmptyOrHeld, hc, Bool.or_true]

/-! ## Replies when the order of the headers is left to Go -/

theorem statusOf_routeClosureIn (R : Route) (visit : List (String × String)) :
    statusOf (routeClosureIn R visit) = some R.Status := by
  unfold routeClosureIn
  induction visit with
  | nil => rfl
  | cons kv rest ih => simpa [statusOf] using ih

theorem headersOf_routeClosureIn (R : Route) (visit : List (String × String)) :
    headersOf (routeClosureIn R visit) = visit := by
  unfold routeClosureIn
  induction visit with
  | nil => rfl
  | cons kv rest ih => simp [headersOf, ih]

theorem bodyOf_routeClosureIn (R : Route) (visit : List (String × String)) :
    bodyOf (routeClosureIn R visit) = R.Response := by
  unfold routeClosureIn
  induction visit with
  | nil => simp [bodyOf]
  | cons kv rest ih => simpa [bodyOf] using ih

theorem mayReply_of_path_ne (h : Handler) (r : Request) (calls : List Effect)
    (hne : r.Path ≠ h.path) : h.mayReply r calls ↔ calls = [Effect.NotFound] := by
  simp [Handler.mayReply, hne]

theorem mayReply_of_get (h : Handler) (r : Request) (calls : List Effect) (R : Route)
    (hpath : r.Path = h.path) (hget : h.methods.get r.Method = some R) :
    h.mayReply r calls ↔
      ∃ visit : List (String × String), visit.Perm R.Headers ∧
        calls = routeClosureIn R visit := by
  simp [Handler.mayReply, hpath, hget]

theorem mayReply_of_get_none (h : Handler) (r : Request) (calls : List Effect)
    (hpath : r.Path = h.path) (hget : h.methods.get r.Method = none) :
    h.mayReply r calls ↔ calls = [Effect.WriteHeader StatusMethodNotAllowed] := by
  simp [Handler.mayReply, hpath, hget]

/-- The reply computed by `ServeHTTP`, which visits the headers in the order of
the list, is one of the replies the handler may give. -/
theorem mayReply_ServeHTTP (h : Handler) (r : Request) : h.mayReply r (h.ServeHTTP r) := by
  by_cases hp : r.Path = h.path
  · rw [ServeHTTP_of_path_eq h r hp]
    cases hg : h.methods.get r.Method with
    | none => exact (mayReply_of_get_none h r _ hp hg).2 rfl
    | some R => exact (mayReply_of_get h r _ R hp hg).2 ⟨R.Headers, List.Perm.refl _, rfl⟩
  · rw [ServeHTTP_of_path_ne h r hp]
    exact (mayReply_of_path_ne h r _ hp).2 rfl

/-- The replies a handler may give depend on the method and the path of the
request only. -/
theorem mayReply_congr (h : Handler) (r1 r2 : Request) (hm : r1.Method = r2.Method)
    (hp : r1.Path = r2.Path) (calls : List Effect) :
    h.mayReply r1 calls ↔ h.mayReply r2 calls := by
  simp only [Handler.mayReply, hm, hp]

/-- Two replies a handler may give to one request differ at most in the order
of the header calls. -/
theorem mayReply_same (h : Handler) (r : Request) (t1 t2 : List Effect)
    (h1 : h.mayReply r t1) (h2 : h.mayReply r t2) :
    statusOf t1 = statusOf t2 ∧ bodyOf t1 = bodyOf t2
    ∧ (headersOf t1).Perm (headersOf t2) := by
  by_cases hp : r.Path = h.path
  · cases hg : h.methods.get r.Method with
    | none =>
      rw [mayReply_of_get_none h r _ hp hg] at h1 h2
      rw [h1, h2]
      exact ⟨rfl, rfl, List.Perm.refl _⟩
    | some R =>
      rw [mayReply_of_get h r _ R hp hg] at h1 h2
      obtain ⟨v1, hv1, e1⟩ := h1
      obtain ⟨v2, hv2, e2⟩ := h2
      rw [e1, e2, statusOf_routeClosureIn, statusOf_routeClosureIn, bodyOf_routeClosureIn,
        bodyOf_routeClosureIn, headersOf_routeClosureIn, headersOf_routeClosureIn]
      exact ⟨rfl, rfl, hv1.trans hv2.symm⟩
  · rw [mayReply_of_path_ne h r _ hp] at h1 h2
    rw [h1, h2]
    exact ⟨rfl, rfl, List.Perm.refl _⟩

theorem find_of_unique_key {α : Type} (key : α → String) (name : String) (l : List α)
    (hnd : (l.map key).Nodup) (x : α) (hx : x ∈ l) (hk : key x = name) :
    l.find? (fun a => key a == name) = some x := by
  induction l with
  | nil => simp at hx
  | cons a l ih =>
    simp only [List.map_cons, List.nodup_cons] at hnd
    rcases List.mem_cons.1 hx with hxa | hxl
    · subst hxa
      simp [List.find?, hk]
    · have hne : key a ≠ name := by
        intro he
        apply hnd.1
        rw [he, ← hk]
        exact List.mem_map_of_mem key hxl
      have hb : (key a == name) = false := beq_false_of_ne hne
      simp only [List.find?, hb]
      exact ih hnd.2 hxl

/-- With pairwise distinct keys the entry found under a key does not depend on
the order of the list. -/
theorem find_perm_of_nodup {α : Type} (key : α → String) (name : String) (l1 l2 : List α)
    (hperm : l1.Perm l2) (hnd : (l1.map key).Nodup) :
    l1.find? (fun a => key a == name) = l2.find? (fun a => key a == name) := by
  have hnd2 : (l2.map key).Nodup := ((hperm.map key).nodup_iff).1 hnd
  by_cases hex : ∃ x ∈ l1, key x = name
  · obtain ⟨x, hx, hk⟩ := hex
    rw [find_of_unique_key key name l1 hnd x hx hk,
      find_of_unique_key key name l2 hnd2 x (hperm.mem_iff.1 hx) hk]
  · have hn1 : l1.find? (fun a => key a == name) = none := by
      rw [List.find?_eq_none]
      intro x hx hb
      exact hex ⟨x, hx, by simpa using hb⟩
    have hn2 : l2.find? (fun a => key a == name) = none := by
      rw [List.find?_eq_none]
      intro x hx hb
      exact hex ⟨x, hperm.mem_iff.2 hx, by simpa using hb⟩
    rw [hn1, hn2]

theorem headerValue_perm (canon : String → String) (t1 t2 : List Effect)
    (hperm : (headersOf t1).Perm (headersOf t2))
    (hnd : ((headersOf t1).map (fun kv => canon kv.1)).Nodup) (name : String) :
    headerValue canon t1 name = headerValue canon t2 name := by
  unfold headerValue
  have hrev : (headersOf t1).reverse.Perm (headersOf t2).reverse :=
    ((List.reverse_perm _).trans hperm).trans (List.reverse_perm _).symm
  have hndrev : ((headersOf t1).reverse.map (fun kv => canon kv.1)).Nodup :=
    (((List.reverse_perm _).map _).nodup_iff).2 hnd
  rw [find_perm_of_nodup (fun kv => canon kv.1) name _ _ hrev hndrev]

theorem mayServe_get (h : Handler) (requests : List Request) (replies : List (List Effect))
    (hrun : h.mayServe requests replies) (i : Nat) (r : Request) (t : List Effect)
    (hr : requests[i]? = some r) (ht : replies[i]? = some t) : h.mayReply r t := by
  unfold Handler.mayServe at hrun
  induction hrun generalizing i with
  | nil => simp at hr
  | cons hhead _ ih =>
    cases i with
    | zero =>
      simp only [List.getElem?_cons_zero, Option.some.injEq] at hr ht
      rw [← hr, ← ht]
      exact hhead
    | succ i =>
      simp only [List.getElem?_cons_succ] at hr ht
      exact ih i hr ht

/-! ## The claims on a transport that refuses patterns, and on replies -/

/-- C4 fails at the tree whose only key is the empty segment, registered from
the empty base: the tree has no invalid segment, yet on every transport that
refuses the empty pattern (as `http.ServeMux` does) the call does not return
successfully, `HandleFunc("")` panics before anything is installed; and with
the empty key visited before the invalid `"/b/"` the call panics instead of
returning an error. -/
theorem empty_segment_panics :
    containsInvalid emptyKey = false
    ∧ (∀ refuses : ServeMux → String → Bool, refuses [] "" = true →
        registerRoutesOn refuses "" [] (some emptyKey) = Outcome.panicked [])
    ∧ registerRoutesOn refusesEmptyOrHeld "" [] (some emptyKey) = Outcome.panicked []
    ∧ containsInvalid emptyThenInvalid = true
    ∧ (∀ refuses : ServeMux → String → Bool, refuses [] "" = true →
        registerRoutesOn refuses "" [] (some emptyThenInvalid) = Outcome.panicked []) := by
  refine ⟨by decide, ?_, by decide, by decide, ?_⟩
  · intro refuses h
    have he : endsWithSlash "" = false := by decide
    have hb : normBase "" ++ "" = "" := by decide
    have hbb : normBase "" ++ (normBase "" ++ "") = "" := by decide
    simp only [registerRoutesOn, emptyKey]
    rw [rangeServerOn_cons]
    simp [he, hb, hbb, PathGroup.Children, registerRoutesOn, h]
  · intro refuses h
    have he : endsWithSlash "" = false := by decide
    have hb : normBase "" ++ "" = "" := by decide
    have hbb : normBase "" ++ (normBase "" ++ "") = "" := by decide
    simp only [registerRoutesOn, emptyThenInvalid]
    rw [rangeServerOn_cons]
    simp [he, hb, hbb, PathGroup.Children, registerRoutesOn, h]

/-- C4 as amended: for every transport, every base, every mux and every tree,
whenever `registerRoutes` returns (no `HandleFunc` call panics) it returns an
error if and only if some key of the tree, at the top level or at any depth
below, is not exactly `"/"` and ends in `'/'`; a tree with such a key never
registers successfully; on a transport that refuses no pattern the call always
returns; and a segment is such a key if and only if its length exceeds 1 and
its last character is `'/'`, so `""` and `"/"` pass the check. -/
theorem returns_error_iff_invalid_segment (refuses : ServeMux → String → Bool)
    (base : String) (mux : ServeMux) (server : jsonServer) :
    (∀ m err, registerRoutesOn refuses base mux (some server) = Outcome.returned m err →
      (err ≠ none
        ↔ ∃ segment ∈ segmentsOf server, segment ≠ "/" ∧ lastIsSlash segment = true))
    ∧ ((∃ segment ∈ segmentsOf server, segment ≠ "/" ∧ lastIsSlash segment = true) →
        ∀ m, registerRoutesOn refuses base mux (some server) ≠ Outcome.returned m none)
    ∧ ((∀ mux1 p, refuses mux1 p = false) →
        ∃ m err, registerRoutesOn refuses base mux (some server) = Outcome.returned m err)
    ∧ (∀ segment : String, (segment ≠ "/" ∧ lastIsSlash segment = true)
        ↔ (len segment > 1 ∧ lastIsSlash segment = true))
    ∧ ¬ ("" ≠ "/" ∧ lastIsSlash "" = true) ∧ ¬ ("/" ≠ "/" ∧ lastIsSlash "/" = true) := by
  have hiff : ∀ m err,
      registerRoutesOn refuses base mux (some server) = Outcome.returned m err →
      (err ≠ none
        ↔ ∃ segment ∈ segmentsOf server, segment ≠ "/" ∧ lastIsSlash segment = true) := by
    intro m err hret
    have hmodel := registerRoutesOn_returned (some server) refuses base mux m err hret
    have herr := rangeServer_err_iff server base mux
    simp only [registerRoutes] at hmodel
    rw [hmodel] at herr
    simp only at herr
    rw [← Option.isSome_iff_ne_none, herr]
    simp [containsInvalid, invalidSegment]
  refine ⟨hiff, ?_, ?_, ?_, by decide, by decide⟩
  · intro hbad m hret
    exact ((hiff m none hret).2 hbad) rfl
  · intro hacc
    exact ⟨_, _, registerRoutesOn_accepting (some server) refuses hacc base mux⟩
  · intro segment
    have h := endsWithSlash_eq_invalidSegment segment
    simp only [endsWithSlash, invalidSegment] at h
    constructor
    · intro hs
      have : (decide (len segment > 1) && lastIsSlash segment) = true := by
        rw [h]
        simp [hs.1, hs.2]
      simpa using this
    · intro hs
      have : (decide (segment ≠ "/") && lastIsSlash segment) = true := by
        rw [← h]
        simp [hs.1, hs.2]
      simpa using this

/-- C4 as amended, at the tree of the test and at the map with the keys `"/a"`
and `"/b/"`, on a transport that refuses the empty pattern and the patterns it
holds: the first call returns no error, the second returns the error. -/
theorem returns_error_iff_invalid_segment_witness :
    registerRoutesOn refusesEmptyOrHeld "" [] (some testServer)
      = Outcome.returned
          [("/newpath/newpath2", handlerOf "/newpath/newpath2" newpath2Group),
           ("/newpath", handlerOf "/newpath" newpathGroup),
           ("/", handlerOf "/" rootGroup)] none
    ∧ registerRoutesOn refusesEmptyOrHeld "" [] (some validThenInvalid)
      = Outcome.returned [("/a", handlerOf "/a" (.mk [getRoute] none))]
          (some "path /b/ ends with a /")
    ∧ ((some "path /b/ ends with a /" : Option String) ≠ none
        ↔ ∃ segment ∈ segmentsOf validThenInvalid,
            segment ≠ "/" ∧ lastIsSlash segment = true) :=
  ⟨by decide, by decide,
    (returns_error_iff_invalid_segment refusesEmptyOrHeld "" [] validThenInvalid).1
      [("/a", handlerOf "/a" (.mk [getRoute] none))] (some "path /b/ ends with a /")
      (by decide)⟩

/-- C7: on every transport that refuses a pattern it already holds (as
`http.ServeMux` does: a second `HandleFunc` with the same pattern panics), for
every tree whose registration from the empty base and the empty mux returns
without error, whether or not its keys start with `'/'`, the patterns of the
installed handlers are pairwise distinct; the installed handlers are those of
`registerRoutes`. -/
theorem one_handler_per_path (refuses : ServeMux → String → Bool)
    (hheld : ∀ mux p, p ∈ mux.map Prod.fst → refuses mux p = true)
    (server : jsonServer) (m : ServeMux)
    (hok : registerRoutesOn refuses "" [] (some server) = Outcome.returned m none) :
    (m.map Prod.fst).Nodup ∧ registerRoutes "" [] (some server) = (m, none) := by
  refine ⟨?_, registerRoutesOn_returned (some server) refuses "" [] m none hok⟩
  have h := registerRoutesOn_nodup (some server) refuses hheld "" [] (by simp)
  rw [hok] at h
  exact h

/-- C7 at the tree of the test, on a transport that refuses the empty pattern
and the patterns it holds: the three patterns are distinct.  On the tree with
`"/"` nested under `"/"` the same transport takes `"/"` once and the second
`HandleFunc("/")` panics, so `"/"` is not installed twice. -/
theorem one_handler_per_path_witness :
    (∀ mux p, p ∈ mux.map Prod.fst → refusesEmptyOrHeld mux p = true)
    ∧ registerRoutesOn refusesEmptyOrHeld "" [] (some testServer)
        = Outcome.returned
            [("/newpath/newpath2", handlerOf "/newpath/newpath2" newpath2Group),
             ("/newpath", handlerOf "/newpath" newpathGroup),
             ("/", handlerOf "/" rootGroup)] none
    ∧ registerRoutesOn refusesEmptyOrHeld "" [] (some rootUnderRoot)
        = Outcome.panicked [("/", handlerOf "/" (.mk [getRoute] none))]
    ∧ ((([("/newpath/newpath2", handlerOf "/newpath/newpath2" newpath2Group),
          ("/newpath", handlerOf "/newpath" newpathGroup),
          ("/", handlerOf "/" rootGroup)] : ServeMux).map Prod.fst).Nodup
        ∧ registerRoutes "" [] (some testServer)
          = ([("/newpath/newpath2", handlerOf "/newpath/newpath2" newpath2Group),
              ("/newpath", handlerOf "/newpath" newpathGroup),
              ("/", handlerOf "/" rootGroup)], none)) :=
  ⟨refusesEmptyOrHeld_held, by decide, by decide,
    one_handler_per_path refusesEmptyOrHeld refusesEmptyOrHeld_held testServer _ (by decide)⟩

/-- C13 fails at a route whose header names `x-a` and `X-A` have the same
canonical form: its handler is installed at `"/h"`, and to one `GET` request
it may reply setting `x-a` then `X-A`, or `X-A` then `x-a`; the response
carries `X-A: 2` in the first case and `X-A: 1` in the second. -/
theorem header_order_changes_reply :
    ("/h", handlerOf "/h" collidingGroup) ∈ (registerRoutes "" [] (some collidingHeaders)).1
    ∧ (handlerOf "/h" collidingGroup).mayReply getH
        (routeClosureIn collidingRoute [("x-a", "1"), ("X-A", "2")])
    ∧ (handlerOf "/h" collidingGroup).mayReply getH
        (routeClosureIn collidingRoute [("X-A", "2"), ("x-a", "1")])
    ∧ CanonicalMIMEHeaderKey "x-a" = "X-A" ∧ CanonicalMIMEHeaderKey "X-A" = "X-A"
    ∧ headerValue CanonicalMIMEHeaderKey
        (routeClosureIn collidingRoute [("x-a", "1"), ("X-A", "2")]) "X-A" = some "2"
    ∧ headerValue CanonicalMIMEHeaderKey
        (routeClosureIn collidingRoute [("X-A", "2"), ("x-a", "1")]) "X-A" = some "1" := by
  refine ⟨by decide, ?_, ?_, by decide, by decide, by decide, by decide⟩
  · exact (mayReply_of_get _ getH _ collidingRoute (by decide) (by decide)).2
      ⟨_, List.Perm.refl _, rfl⟩
  · exact (mayReply_of_get _ getH _ collidingRoute (by decide) (by decide)).2
      ⟨_, List.Perm.swap _ _ _, rfl⟩

/-- C13 as amended: for every handler (so for every installed one), any two
requests with the same method and the same path, and any replies the handler
may give to them: the two replies have the same status and the same body and
set the same header names to the same values, possibly in another order; the
values the response carries are the same under every header name whenever the
canonical forms of the names set are pairwise distinct; the replies the
handler may give are the same for both requests, whatever their headers and
bodies; and in every run of requests the reply to a request is one the handler
may give to that request alone, whatever was served before. -/
theorem same_reply_up_to_header_order (h : Handler) (r1 r2 : Request)
    (hm : r1.Method = r2.Method) (hp : r1.Path = r2.Path) (t1 t2 : List Effect)
    (h1 : h.mayReply r1 t1) (h2 : h.mayReply r2 t2) :
    statusOf t1 = statusOf t2 ∧ bodyOf t1 = bodyOf t2
    ∧ (headersOf t1).Perm (headersOf t2)
    ∧ (∀ canon : String → String, ((headersOf t1).map (fun kv => canon kv.1)).Nodup →
        ∀ name, headerValue canon t1 name = headerValue canon t2 name)
    ∧ (∀ calls, h.mayReply r1 calls ↔ h.mayReply r2 calls)
    ∧ (∀ (requests : List Request) (replies : List (List Effect)) (i : Nat)
        (t : List Effect), h.mayServe requests replies → requests[i]? = some r1 →
        replies[i]? = some t → h.mayReply r1 t) := by
  have h2a : h.mayReply r1 t2 := (mayReply_congr h r1 r2 hm hp t2).2 h2
  obtain ⟨hs, hb, hh⟩ := mayReply_same h r1 t1 t2 h1 h2a
  refine ⟨hs, hb, hh, ?_, mayReply_congr h r1 r2 hm hp, ?_⟩
  · intro canon hnd name
    exact headerValue_perm canon t1 t2 hh hnd name
  · intro requests replies i t hrun hr ht
    exact mayServe_get h requests replies hrun i r1 t hr ht

/-- C13 as amended, at the handler of `"/h"`, for a `GET` and a `GET` with
another header and body, answered with the headers in the two orders: same
status, same body, the same header calls up to their order. -/
theorem same_reply_up_to_header_order_witness :
    getH.Method = "GET" ∧ getH.Path = "/h"
    ∧ (handlerOf "/h" collidingGroup).mayReply getH
        (routeClosureIn collidingRoute [("x-a", "1"), ("X-A", "2")])
    ∧ (handlerOf "/h" collidingGroup).mayReply
        { Method := "GET", Path := "/h", Header := [("X-Trace", "1")], Body := "ignored" }
        (routeClosureIn collidingRoute [("X-A", "2"), ("x-a", "1")])
    ∧ statusOf (routeClosureIn collidingRoute [("x-a", "1"), ("X-A", "2")])
        = statusOf (routeClosureIn collidingRoute [("X-A", "2"), ("x-a", "1")])
    ∧ bodyOf (routeClosureIn collidingRoute [("x-a", "1"), ("X-A", "2")])
        = bodyOf (routeClosureIn collidingRoute [("X-A", "2"), ("x-a", "1")])
    ∧ (headersOf (routeClosureIn collidingRoute [("x-a", "1"), ("X-A", "2")])).Perm
        (headersOf (routeClosureIn collidingRoute [("X-A", "2"), ("x-a", "1")])) :=
  have ha : (handlerOf "/h" collidingGroup).mayReply getH
      (routeClosureIn collidingRoute [("x-a", "1"), ("X-A", "2")]) :=
    (mayReply_of_get _ getH _ collidingRoute (by decide) (by decide)).2
      ⟨_, List.Perm.refl _, rfl⟩
  have hb : (handlerOf "/h" collidingGroup).mayReply
      { Method := "GET", Path := "/h", Header := [("X-Trace", "1")], Body := "ignored" }
      (routeClosureIn collidingRoute [("X-A", "2"), ("x-a", "1")]) :=
    (mayReply_of_get _ _ _ collidingRoute (by decide) (by decide)).2
      ⟨_, List.Perm.swap _ _ _, rfl⟩
  have hall := same_reply_up_to_header_order (handlerOf "/h" collidingGroup) getH
    { Method := "GET", Path := "/h", Header := [("X-Trace", "1")], Body := "ignored" }
    rfl rfl _ _ ha hb
  ⟨rfl, rfl, ha, hb, hall.1, hall.2.1, hall.2.2.1⟩

end JsonServer
